import Mathlib

/-!
Verification of the mule-build configuration-transformation pipeline.

The file shallowly embeds the content transformers, the violation scanner,
the file-set resolver and the `packageProject` orchestration of the
repository (sources: `src/engine/XmlProcessor.ts`, `src/engine/PomParser.ts`
and the package API module) and proves the frozen claims about them.

File contents are modelled as `List Char`; the JavaScript regex rewrites the
source performs with `String.replace(. , g-flag)` are embedded as left-to-right
scanners that at each position try the (fixed, concrete) pattern, consume a
match and continue after it, or advance one character.  File systems are
modelled as association lists from paths (segment lists) to contents, with
write-shadowing semantics; directories are implicit (a path "exists" when a
file lies at or strictly under it), which matches the subtrees the claims
quantify over.
-/

namespace MuleBuild

/-- File content as a character list. -/
abbrev Chars := List Char

/-- ASCII lower-casing of one character, the effect of a case-insensitive
regex over the ASCII pattern alphabet the source uses. -/
def lowerC (c : Char) : Char :=
  if 'A' ≤ c ∧ c ≤ 'Z' then Char.ofNat (c.toNat + 32) else c

/-- Lower-case a character list. -/
def lowerS (s : Chars) : Chars := s.map lowerC

/-- begins p s: the list s starts with the list p (generic over the element
type; used both for character patterns and for path prefixes). -/
def begins {α : Type} [DecidableEq α] : List α → List α → Bool
  | [], _ => true
  | _ :: _, [] => false
  | p :: ps, c :: cs => decide (p = c) && begins ps cs

/-- occursIn pat s: pat occurs contiguously somewhere in s. -/
def occursIn {α : Type} [DecidableEq α] (pat : List α) : List α → Bool
  | [] => begins pat []
  | c :: cs => begins pat (c :: cs) || occursIn pat cs

/-- Split a list at the first occurrence of the element `stop`; returns the
part strictly before it and the part strictly after it.  This is how a
greedy `[^stop]*` followed by the literal `stop` matches. -/
def splitAtChar {α : Type} [DecidableEq α] (stop : α) : List α → Option (List α × List α)
  | [] => none
  | c :: cs =>
    if c = stop then some ([], cs)
    else
      match splitAtChar stop cs with
      | some (b, r) => some (c :: b, r)
      | none => none

/-- Split a list at the first occurrence of the sublist `pat`; returns the
part before it and the part after it.  This is how a lazy `[\s\S]*?`
followed by the literal `pat` matches. -/
def splitAtSub {α : Type} [DecidableEq α] (pat : List α) : List α → Option (List α × List α)
  | [] => if begins pat [] then some ([], []) else none
  | c :: cs =>
    if begins pat (c :: cs) then some ([], (c :: cs).drop pat.length)
    else
      match splitAtSub pat cs with
      | some (b, r) => some (c :: b, r)
      | none => none

theorem begins_eq {α : Type} [DecidableEq α] :
    ∀ {p s : List α}, begins p s = true → s = p ++ s.drop p.length := by
  intro p
  induction p with
  | nil => intro s _; simp
  | cons a ps ih =>
    intro s h
    cases s with
    | nil => simp [begins] at h
    | cons c cs =>
      simp only [begins, Bool.and_eq_true, decide_eq_true_eq] at h
      obtain ⟨rfl, h2⟩ := h
      simpa using ih h2

theorem begins_length {α : Type} [DecidableEq α] :
    ∀ {p s : List α}, begins p s = true → p.length ≤ s.length := by
  intro p s h
  have := begins_eq h
  have : s.length = p.length + (s.drop p.length).length := by
    conv_lhs => rw [this]
    simp
  omega

theorem begins_append_self {α : Type} [DecidableEq α] :
    ∀ (p t : List α), begins p (p ++ t) = true := by
  intro p
  induction p with
  | nil => intro t; simp [begins]
  | cons a ps ih => intro t; simp [begins, ih]

theorem begins_append_cancel {α : Type} [DecidableEq α] :
    ∀ (x y z : List α), begins (x ++ y) (x ++ z) = begins y z := by
  intro x
  induction x with
  | nil => intro y z; simp
  | cons a xs ih => intro y z; simp [begins, ih]

theorem splitAtChar_eq {α : Type} [DecidableEq α] {stop : α} :
    ∀ {s b r : List α}, splitAtChar stop s = some (b, r) → s = b ++ stop :: r := by
  intro s
  induction s with
  | nil => intro b r h; simp [splitAtChar] at h
  | cons c cs ih =>
    intro b r h
    by_cases hc : c = stop
    · simp [splitAtChar, hc] at h
      obtain ⟨rfl, rfl⟩ := h
      simp [hc]
    · simp only [splitAtChar, if_neg hc] at h
      cases hs : splitAtChar stop cs with
      | none => rw [hs] at h; simp at h
      | some br =>
        obtain ⟨b0, r0⟩ := br
        rw [hs] at h
        simp at h
        obtain ⟨rfl, rfl⟩ := h
        simpa using ih hs

theorem splitAtChar_not_mem {α : Type} [DecidableEq α] {stop : α} :
    ∀ {s b r : List α}, splitAtChar stop s = some (b, r) → stop ∉ b := by
  intro s
  induction s with
  | nil => intro b r h; simp [splitAtChar] at h
  | cons c cs ih =>
    intro b r h
    by_cases hc : c = stop
    · simp [splitAtChar, hc] at h
      obtain ⟨rfl, rfl⟩ := h
      simp
    · simp only [splitAtChar, if_neg hc] at h
      cases hs : splitAtChar stop cs with
      | none => rw [hs] at h; simp at h
      | some br =>
        obtain ⟨b0, r0⟩ := br
        rw [hs] at h
        simp at h
        obtain ⟨rfl, rfl⟩ := h
        intro hm
        rcases List.mem_cons.mp hm with h1 | h2
        · exact hc h1.symm
        · exact ih hs h2

theorem splitAtSub_eq {α : Type} [DecidableEq α] {pat : List α} :
    ∀ {s b r : List α}, splitAtSub pat s = some (b, r) → s = b ++ pat ++ r := by
  intro s
  induction s with
  | nil =>
    intro b r h
    simp only [splitAtSub] at h
    by_cases hp : begins pat ([] : List α) = true
    · cases pat with
      | nil => simp [hp] at h; obtain ⟨rfl, rfl⟩ := h; simp
      | cons a ps => simp [begins] at hp
    · simp [hp] at h
  | cons c cs ih =>
    intro b r h
    simp only [splitAtSub] at h
    by_cases hp : begins pat (c :: cs) = true
    · rw [if_pos hp] at h
      simp at h
      obtain ⟨rfl, rfl⟩ := h
      have := begins_eq hp
      conv_lhs => rw [this]
      simp
    · rw [if_neg hp] at h
      cases hs : splitAtSub pat cs with
      | none => rw [hs] at h; simp at h
      | some br =>
        obtain ⟨b0, r0⟩ := br
        rw [hs] at h
        simp at h
        obtain ⟨rfl, rfl⟩ := h
        simpa using ih hs

/-- The split at the first occurrence is the shortest one: any other
decomposition around `pat` has an at-least-as-long part before it.  This is
the non-greediness of the embedded `[\s\S]*?`. -/
theorem splitAtSub_first {α : Type} [DecidableEq α] {pat : List α} :
    ∀ {s b r : List α}, splitAtSub pat s = some (b, r) →
      ∀ b2 r2, s = b2 ++ pat ++ r2 → b.length ≤ b2.length := by
  intro s
  induction s with
  | nil =>
    intro b r h b2 r2 _
    simp only [splitAtSub] at h
    by_cases hp : begins pat ([] : List α) = true
    · rw [if_pos hp] at h; simp at h; obtain ⟨rfl, rfl⟩ := h; simp
    · simp [hp] at h
  | cons c cs ih =>
    intro b r h b2 r2 heq
    simp only [splitAtSub] at h
    by_cases hp : begins pat (c :: cs) = true
    · rw [if_pos hp] at h; simp at h; obtain ⟨rfl, rfl⟩ := h; simp
    · rw [if_neg hp] at h
      cases hs : splitAtSub pat cs with
      | none => rw [hs] at h; simp at h
      | some br =>
        obtain ⟨b0, r0⟩ := br
        rw [hs] at h
        simp at h
        obtain ⟨rfl, rfl⟩ := h
        cases b2 with
        | nil =>
          exfalso
          apply hp
          simp only [List.nil_append] at heq
          rw [heq]
          exact begins_append_self pat r2
        | cons d ds =>
          simp only [List.cons_append, List.cons.injEq] at heq
          obtain ⟨rfl, heq2⟩ := heq
          simpa using ih hs ds r2 heq2

end MuleBuild

namespace MuleBuild

/-- A pattern matcher at the head of a string: `find s = some (b, r)` when
the pattern matches a prefix of `s` with payload `b` and rest `r`;
`text b` is the exact matched text.  `find_spec` ties them together: a
match really is a non-empty prefix (which also bounds the scanners). -/
structure Matcher (β : Type) where
  find : Chars → Option (β × Chars)
  text : β → Chars
  find_spec : ∀ s b r, find s = some (b, r) → s = text b ++ r ∧ 0 < (text b).length

/-- A `Matcher` together with the replacement for a match: the embedding of
one `content.replace(pattern, replacement)` call with the `g` flag. -/
structure Rewriter (β : Type) extends Matcher β where
  repl : β → Chars

theorem find_rest_le {β : Type} (M : Matcher β) {c : Char} {cs : Chars} {b : β} {r : Chars}
    (h : M.find (c :: cs) = some (b, r)) : r.length ≤ cs.length := by
  obtain ⟨he, hp⟩ := M.find_spec _ _ _ h
  have : (c :: cs).length = (M.text b).length + r.length := by
    rw [he, List.length_append]
  simp only [List.length_cons] at this
  omega

/-- Left-to-right global rewrite with explicit fuel (the scanners consume at
least one character per step, so fuel = input length always suffices; the
fuel only makes the recursion structural). -/
def runRwF {β : Type} (R : Rewriter β) : Nat → Chars → Chars × Nat
  | _, [] => ([], 0)
  | 0, s => (s, 0)
  | fuel + 1, c :: cs =>
    match R.find (c :: cs) with
    | some (b, r) =>
      let out := runRwF R fuel r
      (R.repl b ++ out.1, out.2 + 1)
    | none =>
      let out := runRwF R fuel cs
      (c :: out.1, out.2)

/-- Left-to-right global rewrite: at each position replace a match and
continue after it, or keep the character and advance one position; returns
the rewritten content and the replacement count, exactly as the counting
callbacks of `stripSecureFromContent` do. -/
def runRw {β : Type} (R : Rewriter β) (s : Chars) : Chars × Nat :=
  runRwF R s.length s

/-- The segmentation a global rewrite induces on its input: kept characters
and replaced spans, in input order. -/
inductive Seg where
  | keep (c : Char)
  | rep (orig new : Chars)
deriving DecidableEq

/-- The original text of one segment. -/
def segOrig : Seg → Chars
  | .keep c => [c]
  | .rep o _ => o

/-- The rewritten text of one segment. -/
def segNew : Seg → Chars
  | .keep c => [c]
  | .rep _ n => n

/-- Original text of a segment list. -/
def origOf (l : List Seg) : Chars := l.flatMap segOrig

/-- Rewritten text of a segment list. -/
def newOf (l : List Seg) : Chars := l.flatMap segNew

theorem origOf_nil : origOf [] = [] := rfl

theorem origOf_cons (x : Seg) (l : List Seg) : origOf (x :: l) = segOrig x ++ origOf l := rfl

theorem newOf_nil : newOf [] = [] := rfl

theorem newOf_cons (x : Seg) (l : List Seg) : newOf (x :: l) = segNew x ++ newOf l := rfl

/-- The segmentation of a global rewrite over the input (fuelled). -/
def runSegsF {β : Type} (R : Rewriter β) : Nat → Chars → List Seg
  | _, [] => []
  | 0, s => s.map Seg.keep
  | fuel + 1, c :: cs =>
    match R.find (c :: cs) with
    | some (b, r) => Seg.rep (R.text b) (R.repl b) :: runSegsF R fuel r
    | none => Seg.keep c :: runSegsF R fuel cs

/-- The segmentation of a global rewrite over the input. -/
def runSegs {β : Type} (R : Rewriter β) (s : Chars) : List Seg :=
  runSegsF R s.length s

/-- All matches of a matcher over a string with their start columns, in
left-to-right order: the embedding of `line.matchAll(pattern)` (fuelled). -/
def occsF {β : Type} (M : Matcher β) : Nat → Nat → Chars → List (Nat × β)
  | _, _, [] => []
  | 0, _, _ => []
  | fuel + 1, i, c :: cs =>
    match M.find (c :: cs) with
    | some (b, r) => (i, b) :: occsF M fuel (i + (M.text b).length) r
    | none => occsF M fuel (i + 1) cs

/-- All matches of a matcher over a string with their start columns. -/
def occs {β : Type} (M : Matcher β) (i : Nat) (s : Chars) : List (Nat × β) :=
  occsF M s.length i s

theorem runSegsF_orig {β : Type} (R : Rewriter β) :
    ∀ fuel s, s.length ≤ fuel → origOf (runSegsF R fuel s) = s := by
  intro fuel
  induction fuel with
  | zero =>
    intro s h
    have : s = [] := List.length_eq_zero.mp (Nat.le_zero.mp h)
    subst this
    rfl
  | succ n ih =>
    intro s h
    cases s with
    | nil => rfl
    | cons c cs =>
      rw [runSegsF]
      cases hf : R.find (c :: cs) with
      | some br =>
        obtain ⟨b, r⟩ := br
        simp only [origOf_cons, segOrig]
        rw [ih r (le_trans (find_rest_le R.toMatcher hf)
          (by simpa using Nat.succ_le_succ_iff.mp h))]
        exact ((R.find_spec _ _ _ hf).1).symm
      | none =>
        simp only [origOf_cons, segOrig, List.singleton_append]
        rw [ih cs (by simpa using Nat.succ_le_succ_iff.mp h)]

theorem runSegsF_new {β : Type} (R : Rewriter β) :
    ∀ fuel s, s.length ≤ fuel → newOf (runSegsF R fuel s) = (runRwF R fuel s).1 := by
  intro fuel
  induction fuel with
  | zero =>
    intro s h
    have : s = [] := List.length_eq_zero.mp (Nat.le_zero.mp h)
    subst this
    rfl
  | succ n ih =>
    intro s h
    cases s with
    | nil => rfl
    | cons c cs =>
      rw [runSegsF, runRwF]
      cases hf : R.find (c :: cs) with
      | some br =>
        obtain ⟨b, r⟩ := br
        simp only [newOf_cons, segNew]
        rw [ih r (le_trans (find_rest_le R.toMatcher hf)
          (by simpa using Nat.succ_le_succ_iff.mp h))]
      | none =>
        simp only [newOf_cons, segNew, List.singleton_append]
        rw [ih cs (by simpa using Nat.succ_le_succ_iff.mp h)]

theorem runSegsF_rep_mem {β : Type} (R : Rewriter β) :
    ∀ fuel s o n, Seg.rep o n ∈ runSegsF R fuel s →
      ∃ b r t, R.find t = some (b, r) ∧ o = R.text b ∧ n = R.repl b := by
  intro fuel
  induction fuel with
  | zero =>
    intro s o n hm
    cases s with
    | nil => simp [runSegsF] at hm
    | cons c cs =>
      simp only [runSegsF, List.mem_map] at hm
      obtain ⟨x, _, hx⟩ := hm
      cases hx
  | succ nf ih =>
    intro s o n hm
    cases s with
    | nil => simp [runSegsF] at hm
    | cons c cs =>
      rw [runSegsF] at hm
      cases hf : R.find (c :: cs) with
      | some br =>
        obtain ⟨b, r⟩ := br
        rw [hf] at hm
        rcases List.mem_cons.mp hm with h1 | h2
        · injection h1 with h1a h1b
          exact ⟨b, r, c :: cs, hf, h1a, h1b⟩
        · exact ih r o n h2
      | none =>
        rw [hf] at hm
        rcases List.mem_cons.mp hm with h1 | h2
        · cases h1
        · exact ih cs o n h2

theorem runRwF_count_zero {β : Type} (R : Rewriter β) :
    ∀ fuel s, (runRwF R fuel s).2 = 0 → (runRwF R fuel s).1 = s := by
  intro fuel
  induction fuel with
  | zero =>
    intro s _
    cases s with
    | nil => rfl
    | cons c cs => rfl
  | succ n ih =>
    intro s hz
    cases s with
    | nil => rfl
    | cons c cs =>
      rw [runRwF] at hz ⊢
      cases hf : R.find (c :: cs) with
      | some br =>
        obtain ⟨b, r⟩ := br
        rw [hf] at hz
        simp at hz
      | none =>
        rw [hf] at hz
        simp at hz ⊢
        exact ih cs hz

/-- If a predicate that blocks matching holds nowhere in the input, the
rewrite is the identity with zero replacements. -/
theorem runRwF_id_of_none {β : Type} (R : Rewriter β) (P : Chars → Bool)
    (hfind : ∀ t, P t = false → R.find t = none)
    (htail : ∀ c t, P (c :: t) = false → P t = false) :
    ∀ fuel s, P s = false → runRwF R fuel s = (s, 0) := by
  intro fuel
  induction fuel with
  | zero =>
    intro s _
    cases s with
    | nil => rfl
    | cons c cs => rfl
  | succ n ih =>
    intro s hp
    cases s with
    | nil => rfl
    | cons c cs =>
      rw [runRwF]
      rw [hfind _ hp]
      simp only
      rw [ih cs (htail _ _ hp)]

theorem occsF_sound {β : Type} (M : Matcher β) :
    ∀ fuel i s col b, (col, b) ∈ occsF M fuel i s →
      ∃ pre suf, s = pre ++ M.text b ++ suf ∧ col = i + pre.length := by
  intro fuel
  induction fuel with
  | zero =>
    intro i s col b hm
    cases s with
    | nil => simp [occsF] at hm
    | cons c cs => simp [occsF] at hm
  | succ n ih =>
    intro i s col b hm
    cases s with
    | nil => simp [occsF] at hm
    | cons c cs =>
      rw [occsF] at hm
      cases hf : M.find (c :: cs) with
      | some br =>
        obtain ⟨b0, r⟩ := br
        rw [hf] at hm
        rcases List.mem_cons.mp hm with h1 | h2
        · rw [Prod.mk.injEq] at h1
          obtain ⟨rfl, rfl⟩ := h1
          exact ⟨[], r, by simpa using (M.find_spec _ _ _ hf).1, by simp⟩
        · obtain ⟨pre, suf, he, hcol⟩ := ih _ _ col b h2
          refine ⟨M.text b0 ++ pre, suf, ?_, ?_⟩
          · rw [(M.find_spec _ _ _ hf).1, he]
            simp
          · rw [hcol, List.length_append]
            omega
      | none =>
        rw [hf] at hm
        obtain ⟨pre, suf, he, hcol⟩ := ih _ _ col b hm
        refine ⟨c :: pre, suf, by simp [he], ?_⟩
        rw [hcol]
        simp only [List.length_cons]
        omega

theorem occsF_lb {β : Type} (M : Matcher β) :
    ∀ fuel i s x, x ∈ occsF M fuel i s → i ≤ x.1 := by
  intro fuel
  induction fuel with
  | zero =>
    intro i s x hm
    cases s with
    | nil => simp [occsF] at hm
    | cons c cs => simp [occsF] at hm
  | succ n ih =>
    intro i s x hm
    cases s with
    | nil => simp [occsF] at hm
    | cons c cs =>
      rw [occsF] at hm
      cases hf : M.find (c :: cs) with
      | some br =>
        obtain ⟨b, r⟩ := br
        rw [hf] at hm
        rcases List.mem_cons.mp hm with h1 | h2
        · cases h1; simp
        · have := ih _ _ x h2
          have hp := (M.find_spec _ _ _ hf).2
          omega
      | none =>
        rw [hf] at hm
        have := ih _ _ x hm
        omega

/-- Match columns are strictly increasing: matches are reported in
left-to-right order. -/
theorem occsF_strict {β : Type} (M : Matcher β) :
    ∀ fuel i s, List.Pairwise (fun x y => x.1 < y.1) (occsF M fuel i s) := by
  intro fuel
  induction fuel with
  | zero =>
    intro i s
    cases s with
    | nil => simp [occsF]
    | cons c cs => simp [occsF]
  | succ n ih =>
    intro i s
    cases s with
    | nil => simp [occsF]
    | cons c cs =>
      rw [occsF]
      cases hf : M.find (c :: cs) with
      | some br =>
        obtain ⟨b, r⟩ := br
        refine List.Pairwise.cons ?_ (ih _ _)
        intro y hy
        have h1 := occsF_lb M _ _ _ _ hy
        have hp := (M.find_spec _ _ _ hf).2
        simp only
        omega
      | none => exact ih _ _

theorem runSegs_orig {β : Type} (R : Rewriter β) (s : Chars) :
    origOf (runSegs R s) = s :=
  runSegsF_orig R s.length s le_rfl

theorem runSegs_new {β : Type} (R : Rewriter β) (s : Chars) :
    newOf (runSegs R s) = (runRw R s).1 :=
  runSegsF_new R s.length s le_rfl

theorem runSegs_rep_mem {β : Type} (R : Rewriter β) {s : Chars} {o n : Chars}
    (hm : Seg.rep o n ∈ runSegs R s) :
    ∃ b r t, R.find t = some (b, r) ∧ o = R.text b ∧ n = R.repl b :=
  runSegsF_rep_mem R s.length s o n hm

theorem runRw_count_zero {β : Type} (R : Rewriter β) {s : Chars}
    (h : (runRw R s).2 = 0) : (runRw R s).1 = s :=
  runRwF_count_zero R s.length s h

theorem runRw_id_of_none {β : Type} (R : Rewriter β) (P : Chars → Bool)
    (hfind : ∀ t, P t = false → R.find t = none)
    (htail : ∀ c t, P (c :: t) = false → P t = false)
    {s : Chars} (hp : P s = false) : runRw R s = (s, 0) :=
  runRwF_id_of_none R P hfind htail s.length s hp

theorem occs_sound {β : Type} (M : Matcher β) {i : Nat} {s : Chars} {col : Nat} {b : β}
    (hm : (col, b) ∈ occs M i s) :
    ∃ pre suf, s = pre ++ M.text b ++ suf ∧ col = i + pre.length :=
  occsF_sound M s.length i s col b hm

theorem occs_strict {β : Type} (M : Matcher β) (i : Nat) (s : Chars) :
    List.Pairwise (fun x y => x.1 < y.1) (occs M i s) :=
  occsF_strict M s.length i s

end MuleBuild

namespace MuleBuild

/-- The literal text before the captured name in the brace form: the source
regex is `\$\{secure::([^}]+)\}` (PATTERNS.securePropertyBraces). -/
def braceMarker : Chars := "$\x7bsecure::".toList

/-- The literal text before the captured name in the call form: the source
regex is `Mule::p\('secure::([^']+)'\)` (PATTERNS.securePropertyDataWeave). -/
def dwMarker : Chars := "Mule::p(\x27secure::".toList

/-- Head match of `\$\{secure::([^}]+)\}`; the payload is the captured
property name (non-empty, free of closing braces, up to the first one). -/
def findSecureBrace (s : Chars) : Option (Chars × Chars) :=
  if begins braceMarker s then
    match splitAtChar '\x7d' (s.drop braceMarker.length) with
    | some (body, rest) => if body.isEmpty then none else some (body, rest)
    | none => none
  else none

/-- Head match of `Mule::p\('secure::([^']+)'\)`. -/
def findSecureDW (s : Chars) : Option (Chars × Chars) :=
  if begins dwMarker s then
    match splitAtChar '\x27' (s.drop dwMarker.length) with
    | some (body, rest) =>
      if body.isEmpty then none
      else
        match rest with
        | c2 :: rest2 => if c2 = ')' then some (body, rest2) else none
        | [] => none
    | none => none
  else none

/-- The rewrite `${secure::prop}` to `${prop}` of `stripSecureFromContent`. -/
def braceRw : Rewriter Chars where
  find := findSecureBrace
  text := fun b => braceMarker ++ b ++ ['\x7d']
  repl := fun b => '$' :: '\x7b' :: (b ++ ['\x7d'])
  find_spec := by
    intro s b r h
    unfold findSecureBrace at h
    by_cases hb : begins braceMarker s = true
    · rw [if_pos hb] at h
      cases hs : splitAtChar '\x7d' (s.drop braceMarker.length) with
      | none => rw [hs] at h; simp at h
      | some br =>
        obtain ⟨b0, r0⟩ := br
        rw [hs] at h
        by_cases he : b0 = []
        · simp [he] at h
        · simp [List.isEmpty_iff, he] at h
          obtain ⟨rfl, rfl⟩ := h
          refine ⟨?_, by simp⟩
          conv_lhs => rw [begins_eq hb, splitAtChar_eq hs]
          simp
    · rw [if_neg hb] at h
      simp at h

/-- The rewrite `Mule::p('secure::prop')` to `Mule::p('prop')` of
`stripSecureFromContent`. -/
def dwRw : Rewriter Chars where
  find := findSecureDW
  text := fun b => dwMarker ++ b ++ ['\x27', ')']
  repl := fun b => "Mule::p(\x27".toList ++ b ++ ['\x27', ')']
  find_spec := by
    intro s b r h
    unfold findSecureDW at h
    by_cases hb : begins dwMarker s = true
    · rw [if_pos hb] at h
      cases hs : splitAtChar '\x27' (s.drop dwMarker.length) with
      | none => rw [hs] at h; simp at h
      | some br =>
        obtain ⟨b0, r0⟩ := br
        rw [hs] at h
        by_cases he : b0 = []
        · simp [he] at h
        · simp only [List.isEmpty_iff, if_neg he] at h
          cases r0 with
          | nil => simp at h
          | cons c2 rest2 =>
            by_cases hc : c2 = ')'
            · subst hc
              simp at h
              obtain ⟨rfl, rfl⟩ := h
              refine ⟨?_, by simp⟩
              conv_lhs => rw [begins_eq hb, splitAtChar_eq hs]
              simp
            · simp [hc] at h
    · rw [if_neg hb] at h
      simp at h

/-- `stripSecureFromContent` of `XmlProcessor.ts`: replace every
`${secure::prop}` by `${prop}` over the whole content, then every
`Mule::p('secure::prop')` by `Mule::p('prop')` over the result, counting
every replacement of both passes. -/
def stripSecureFromContent (content : Chars) : Chars × Nat :=
  let p1 := runRw braceRw content
  let p2 := runRw dwRw p1.1
  (p2.1, p1.2 + p2.2)

/-- Open-tag literal of the secure-properties block
(`<secure-properties:config`). -/
def spcOpen : Chars := "<secure-properties:config".toList

/-- Close-tag literal of the secure-properties block
(`</secure-properties:config>`). -/
def spcClose : Chars := "</secure-properties:config>".toList

/-- Head match of
`<secure-properties:config[^>]*>[\s\S]*?<\/secure-properties:config>`:
payload is (attribute text, block body). -/
def findSPCBlock (s : Chars) : Option ((Chars × Chars) × Chars) :=
  if begins spcOpen s then
    match splitAtChar '>' (s.drop spcOpen.length) with
    | some (attrs, t) =>
      match splitAtSub spcClose t with
      | some (body, rest) => some ((attrs, body), rest)
      | none => none
    | none => none
  else none

/-- The block-deleting rewrite of `removeSecurePropertiesConfig` (the
replacement is empty; the source regex carries the `g` flag, so one call
removes every matched block). -/
def spcRw : Rewriter (Chars × Chars) where
  find := findSPCBlock
  text := fun p => spcOpen ++ p.1 ++ '>' :: (p.2 ++ spcClose)
  repl := fun _ => []
  find_spec := by
    intro s b r h
    unfold findSPCBlock at h
    by_cases hb : begins spcOpen s = true
    · rw [if_pos hb] at h
      cases hs : splitAtChar '>' (s.drop spcOpen.length) with
      | none => rw [hs] at h; simp at h
      | some at0 =>
        obtain ⟨attrs, t⟩ := at0
        rw [hs] at h
        cases ht : splitAtSub spcClose t with
        | none => simp [ht] at h
        | some br =>
          obtain ⟨body, rest⟩ := br
          simp [ht] at h
          obtain ⟨rfl, rfl⟩ := h
          constructor
          · conv_lhs => rw [begins_eq hb, splitAtChar_eq hs, splitAtSub_eq ht]
            simp
          · have h25 : 0 < spcOpen.length := by decide
            simp
    · rw [if_neg hb] at h
      simp at h

/-- `removeSecurePropertiesConfig` of `XmlProcessor.ts`. -/
def removeSecurePropertiesConfig (content : Chars) : Chars :=
  (runRw spcRw content).1

/-- The literal `${` opening an arbitrary brace property reference. -/
def anyBraceOpen : Chars := "$\x7b".toList

/-- The literal `Mule::p('` opening an arbitrary call property reference. -/
def dwOpen : Chars := "Mule::p(\x27".toList

/-- Head match of the any-property brace regex `\$\{([^}]+)\}`
(PATTERNS.anyProperty). -/
def findAnyBrace (s : Chars) : Option (Chars × Chars) :=
  if begins anyBraceOpen s then
    match splitAtChar '\x7d' (s.drop anyBraceOpen.length) with
    | some (body, rest) => if body.isEmpty then none else some (body, rest)
    | none => none
  else none

/-- Head match of the any-property call regex `Mule::p\('([^']+)'\)`
(PATTERNS.anyDataWeaveProperty). -/
def findAnyDW (s : Chars) : Option (Chars × Chars) :=
  if begins dwOpen s then
    match splitAtChar '\x27' (s.drop dwOpen.length) with
    | some (body, rest) =>
      if body.isEmpty then none
      else
        match rest with
        | c2 :: rest2 => if c2 = ')' then some (body, rest2) else none
        | [] => none
    | none => none
  else none

/-- Matcher for `${prop}` references. -/
def anyBraceM : Matcher Chars where
  find := findAnyBrace
  text := fun b => '$' :: '\x7b' :: (b ++ ['\x7d'])
  find_spec := by
    intro s b r h
    unfold findAnyBrace at h
    by_cases hb : begins anyBraceOpen s = true
    · rw [if_pos hb] at h
      cases hs : splitAtChar '\x7d' (s.drop anyBraceOpen.length) with
      | none => rw [hs] at h; simp at h
      | some br =>
        obtain ⟨b0, r0⟩ := br
        rw [hs] at h
        by_cases he : b0 = []
        · simp [he] at h
        · simp [List.isEmpty_iff, he] at h
          obtain ⟨rfl, rfl⟩ := h
          refine ⟨?_, by simp⟩
          conv_lhs => rw [begins_eq hb, splitAtChar_eq hs]
          simp [anyBraceOpen]
    · rw [if_neg hb] at h
      simp at h

/-- Matcher for `Mule::p('prop')` references. -/
def anyDWM : Matcher Chars where
  find := findAnyDW
  text := fun b => dwOpen ++ b ++ ['\x27', ')']
  find_spec := by
    intro s b r h
    unfold findAnyDW at h
    by_cases hb : begins dwOpen s = true
    · rw [if_pos hb] at h
      cases hs : splitAtChar '\x27' (s.drop dwOpen.length) with
      | none => rw [hs] at h; simp at h
      | some br =>
        obtain ⟨b0, r0⟩ := br
        rw [hs] at h
        by_cases he : b0 = []
        · simp [he] at h
        · simp only [List.isEmpty_iff, if_neg he] at h
          cases r0 with
          | nil => simp at h
          | cons c2 rest2 =>
            by_cases hc : c2 = ')'
            · subst hc
              simp at h
              obtain ⟨rfl, rfl⟩ := h
              refine ⟨?_, by simp [dwOpen]⟩
              conv_lhs => rw [begins_eq hb, splitAtChar_eq hs]
              simp
            · simp [hc] at h
    · rw [if_neg hb] at h
      simp at h

/-- `DEFAULT_SENSITIVE_PATTERNS` of `XmlProcessor.ts`. -/
def DEFAULT_SENSITIVE_PATTERNS : List Chars :=
  ["password", "secret", "key", "token", "credential", "apikey", "api-key",
   "api_key", "consumerKey", "consumerSecret", "tokenId", "tokenSecret"].map
    String.toList

/-- `new RegExp(sensitivePatterns.join('|'), 'i').test(propName)`: the
source joins its (metacharacter-free, literal) patterns with `|` and tests
case-insensitively, which for literal alternatives is exactly "some pattern
is a case-insensitive substring of the name". -/
def sensitiveTest (pats : List Chars) (name : Chars) : Bool :=
  pats.any (fun p => occursIn (lowerS p) (lowerS name))

/-- `content.split('\n')`. -/
def splitLines : Chars → List Chars
  | [] => [[]]
  | c :: cs =>
    if c = '\n' then [] :: splitLines cs
    else
      match splitLines cs with
      | l :: ls => (c :: l) :: ls
      | [] => [[c]]

/-- One violation record of `findUnsecuredProperties`: property name,
1-based line number and the exact matched text. -/
structure Violation where
  property : Chars
  line : Nat
  value : Chars
deriving DecidableEq, Repr

/-- The `secure::` name-prefix marker. -/
def securePre : Chars := "secure::".toList

/-- The body of the per-match loops of `findUnsecuredProperties`: skip a
match whose name already carries the marker, emit a violation when the name
tests sensitive. -/
def keepViolation (pats : List Chars) (lineNo : Nat) (txt : Chars → Chars)
    (ob : Nat × Chars) : Option Violation :=
  if begins securePre ob.2 then none
  else if sensitiveTest pats ob.2 then some ⟨ob.2, lineNo, txt ob.2⟩
  else none

/-- One line's contribution to `findUnsecuredProperties`: all `${prop}`
matches of the line in match order, then all `Mule::p('prop')` matches in
match order, filtered through `keepViolation`. -/
def lineViolations (pats : List Chars) (lineNo : Nat) (line : Chars) : List Violation :=
  (occs anyBraceM 0 line).filterMap (keepViolation pats lineNo anyBraceM.text)
  ++ (occs anyDWM 0 line).filterMap (keepViolation pats lineNo anyDWM.text)

/-- `findUnsecuredProperties` of `XmlProcessor.ts`: split into lines and
collect each line's violations with its 1-based line number. -/
def findUnsecuredProperties (content : Chars) (pats : List Chars) : List Violation :=
  (splitLines content).enum.flatMap (fun il => lineViolations pats (il.1 + 1) il.2)

theorem strip_brace_fixture :
    stripSecureFromContent "password=\x22$\x7bsecure::db.password\x7d\x22".toList =
      ("password=\x22$\x7bdb.password\x7d\x22".toList, 1) := by decide

theorem strip_call_fixture :
    stripSecureFromContent "Mule::p(\x27secure::api.key\x27)".toList =
      ("Mule::p(\x27api.key\x27)".toList, 1) := by decide

theorem strip_second_pass_fixture :
    (stripSecureFromContent
      ((stripSecureFromContent "$\x7bsecure::secure::a\x7d".toList).1)).2 = 1 := by decide

theorem scan_password_fixture :
    (findUnsecuredProperties "$\x7bdb.password\x7d $\x7bhttp.host\x7d".toList
      DEFAULT_SENSITIVE_PATTERNS).map Violation.property =
      ["db.password".toList] := by decide

theorem remove_block_fixture :
    removeSecurePropertiesConfig
      "<a/><secure-properties:config key=\x22k\x22>x\ny</secure-properties:config><b/>".toList =
      "<a/><b/>".toList := by decide

end MuleBuild

namespace MuleBuild

theorem occursIn_tail {α : Type} [DecidableEq α] {pat : List α} {c : α} {cs : List α}
    (h : occursIn pat (c :: cs) = false) : occursIn pat cs = false := by
  have := h
  rw [occursIn] at this
  exact (Bool.or_eq_false_iff.mp this).2

theorem occursIn_of_begins_append {α : Type} [DecidableEq α] :
    ∀ (u pat s : List α), begins (u ++ pat) s = true → occursIn pat s = true := by
  intro u
  induction u with
  | nil =>
    intro pat s h
    simp only [List.nil_append] at h
    cases s with
    | nil => rw [occursIn]; exact h
    | cons c cs => rw [occursIn, h]; rfl
  | cons a us ih =>
    intro pat s h
    cases s with
    | nil => simp [begins] at h
    | cons c cs =>
      simp only [List.cons_append, begins, Bool.and_eq_true] at h
      rw [occursIn, ih pat cs h.2, Bool.or_true]

theorem findSecureBrace_none_of_noMarker {s : Chars}
    (h : occursIn securePre s = false) : findSecureBrace s = none := by
  unfold findSecureBrace
  by_cases hb : begins braceMarker s = true
  · exfalso
    have hm : braceMarker = anyBraceOpen ++ securePre := by decide
    rw [hm] at hb
    rw [occursIn_of_begins_append anyBraceOpen securePre s hb] at h
    cases h
  · rw [if_neg hb]

theorem findSecureDW_none_of_noMarker {s : Chars}
    (h : occursIn securePre s = false) : findSecureDW s = none := by
  unfold findSecureDW
  by_cases hb : begins dwMarker s = true
  · exfalso
    have hm : dwMarker = dwOpen ++ securePre := by decide
    rw [hm] at hb
    rw [occursIn_of_begins_append dwOpen securePre s hb] at h
    cases h
  · rw [if_neg hb]

theorem stripSecureFromContent_id_of_noMarker {s : Chars}
    (h : occursIn securePre s = false) : stripSecureFromContent s = (s, 0) := by
  have h1 : runRw braceRw s = (s, 0) :=
    runRw_id_of_none braceRw (occursIn securePre)
      (fun t ht => findSecureBrace_none_of_noMarker ht)
      (fun c t ht => occursIn_tail ht) h
  have h2 : runRw dwRw s = (s, 0) :=
    runRw_id_of_none dwRw (occursIn securePre)
      (fun t ht => findSecureDW_none_of_noMarker ht)
      (fun c t ht => occursIn_tail ht) h
  unfold stripSecureFromContent
  rw [h1]
  simp only
  rw [h2]
  rfl

/-- C3 counterexample: on `${secure::secure::a}`, the first strip pass
rewrites the whole match to `${secure::a}`, which the second application
strips again - its replacement count is 1, not 0, so
`stripMarker(stripMarker(content).content).replacementCount == 0` fails for
this content. -/
theorem C3_strip_not_idempotent_cex :
    (stripSecureFromContent
      ((stripSecureFromContent "$\x7bsecure::secure::a\x7d".toList).1)).2 ≠ 0 := by
  decide

/-- C3 (amended): the strip operation is idempotent on every content whose
first-pass output no longer contains the marker text `secure::` - there the
second application performs zero replacements (and returns its input
unchanged).  Idempotence does not hold for all content: nested or doubled
markers (such as `${secure::secure::a}`) leave a fresh marker behind. -/
theorem C3_strip_idempotent_amended (content : Chars)
    (h : occursIn securePre (stripSecureFromContent content).1 = false) :
    stripSecureFromContent ((stripSecureFromContent content).1) =
      ((stripSecureFromContent content).1, 0) :=
  stripSecureFromContent_id_of_noMarker h

/-- C3 witness: the amended idempotence theorem applied to the spec's own
strip scenario input. -/
theorem C3_strip_idempotent_amended_witness :
    occursIn securePre
      (stripSecureFromContent "password=\x22$\x7bsecure::db.password\x7d\x22".toList).1 = false ∧
    stripSecureFromContent
        ((stripSecureFromContent "password=\x22$\x7bsecure::db.password\x7d\x22".toList).1) =
      ((stripSecureFromContent "password=\x22$\x7bsecure::db.password\x7d\x22".toList).1, 0) :=
  ⟨by decide, C3_strip_idempotent_amended _ (by decide)⟩

/-- The shape of a replaced span of the brace pass: `${secure::body}`
rewritten to `${body}`. -/
def braceShape (o n : Chars) : Prop :=
  ∃ body, o = braceMarker ++ body ++ ['\x7d'] ∧ n = '$' :: '\x7b' :: (body ++ ['\x7d'])

/-- The shape of a replaced span of the call pass: `Mule::p('secure::body')`
rewritten to `Mule::p('body')`. -/
def dwShape (o n : Chars) : Prop :=
  ∃ body, o = dwMarker ++ body ++ ['\x27', ')'] ∧
    n = "Mule::p(\x27".toList ++ body ++ ['\x27', ')']

/-- C4: each pass of `stripSecureFromContent` segments its input into kept
characters and matched spans: the segments reassemble the input exactly
(`origOf`) and the output exactly (`newOf`), a kept character contributes
the same byte to both, and any segment whose text changed is a matched span
of the corresponding pattern with its prescribed replacement.  So every
byte strictly outside the matched brace-form and call-form spans is
unchanged in the output, and only matched spans differ. -/
theorem C4_strip_byte_preservation (content : Chars) :
    origOf (runSegs braceRw content) = content ∧
    newOf (runSegs braceRw content) = (runRw braceRw content).1 ∧
    origOf (runSegs dwRw ((runRw braceRw content).1)) = (runRw braceRw content).1 ∧
    newOf (runSegs dwRw ((runRw braceRw content).1)) = (stripSecureFromContent content).1 ∧
    (∀ x ∈ runSegs braceRw content,
      segOrig x ≠ segNew x → braceShape (segOrig x) (segNew x)) ∧
    (∀ x ∈ runSegs dwRw ((runRw braceRw content).1),
      segOrig x ≠ segNew x → dwShape (segOrig x) (segNew x)) := by
  refine ⟨runSegs_orig braceRw content, runSegs_new braceRw content,
    runSegs_orig dwRw _, runSegs_new dwRw _, ?_, ?_⟩
  · intro x hx hne
    cases x with
    | keep c => exact absurd rfl hne
    | rep o n =>
      obtain ⟨b, r, t, _, ho, hn⟩ := runSegs_rep_mem braceRw hx
      exact ⟨b, by simpa [braceRw] using ho, by simpa [braceRw] using hn⟩
  · intro x hx hne
    cases x with
    | keep c => exact absurd rfl hne
    | rep o n =>
      obtain ⟨b, r, t, _, ho, hn⟩ := runSegs_rep_mem dwRw hx
      exact ⟨b, by simpa [dwRw] using ho, by simpa [dwRw] using hn⟩

theorem begins_iff {α : Type} [DecidableEq α] :
    ∀ (p s : List α), begins p s = true ↔ p <+: s := by
  intro p
  induction p with
  | nil =>
    intro s
    simp [begins]
  | cons a ps ih =>
    intro s
    cases s with
    | nil =>
      constructor
      · intro h; simp [begins] at h
      · intro h
        have := h.length_le
        simp at this
    | cons c cs =>
      rw [begins, List.cons_prefix_cons]
      simp [ih cs, and_comm]

theorem occursIn_infix_iff {α : Type} [DecidableEq α] (pat : List α) :
    ∀ s, occursIn pat s = true ↔ pat <:+: s := by
  intro s
  induction s with
  | nil =>
    rw [occursIn, begins_iff]
    simp
  | cons c cs ih =>
    rw [occursIn, List.infix_cons_iff, Bool.or_eq_true, begins_iff, ih]

/-- C6: a property name classifies as sensitive exactly when it
case-insensitively contains one of the configured substrings; on the
default pattern list the classification is substring containment (not
whole-word matching), so `apikeyVersion` classifies as sensitive. -/
theorem C6_sensitive_classification :
    (∀ pats name, sensitiveTest pats name = true ↔
      ∃ p ∈ pats, lowerS p <:+: lowerS name) ∧
    sensitiveTest DEFAULT_SENSITIVE_PATTERNS "apikeyVersion".toList = true := by
  constructor
  · intro pats name
    unfold sensitiveTest
    rw [List.any_eq_true]
    constructor
    · rintro ⟨p, hp, ht⟩
      exact ⟨p, hp, (occursIn_infix_iff _ _).mp ht⟩
    · rintro ⟨p, hp, ht⟩
      exact ⟨p, hp, (occursIn_infix_iff _ _).mpr ht⟩
  · decide

end MuleBuild

namespace MuleBuild

theorem len_cons_le {α : Type} {c : α} {cs : List α} {n : Nat}
    (h : (c :: cs).length ≤ n + 1) : cs.length ≤ n := by
  simpa using h

theorem runRwF_fuel_irrel {β : Type} (R : Rewriter β) :
    ∀ f1 f2 s, s.length ≤ f1 → s.length ≤ f2 → runRwF R f1 s = runRwF R f2 s := by
  intro f1
  induction f1 with
  | zero =>
    intro f2 s h1 _
    have : s = [] := List.length_eq_zero.mp (Nat.le_zero.mp h1)
    subst this
    cases f2 <;> rfl
  | succ n ih =>
    intro f2 s h1 h2
    cases s with
    | nil => cases f2 <;> rfl
    | cons c cs =>
      cases f2 with
      | zero => simp at h2
      | succ m =>
        rw [runRwF, runRwF]
        cases hf : R.find (c :: cs) with
        | some br =>
          obtain ⟨b, r⟩ := br
          have hr := find_rest_le R.toMatcher hf
          simp only
          rw [ih m r (le_trans hr (len_cons_le h1)) (le_trans hr (len_cons_le h2))]
        | none =>
          simp only
          rw [ih m cs (len_cons_le h1) (len_cons_le h2)]

/-- Whether the secure-properties block pattern matches at some position. -/
def hasSPCBlock : Chars → Bool
  | [] => false
  | c :: cs => (findSPCBlock (c :: cs)).isSome || hasSPCBlock cs

theorem hasSPCBlock_false_none {t : Chars} (h : hasSPCBlock t = false) :
    findSPCBlock t = none := by
  cases t with
  | nil => decide
  | cons c cs =>
    rw [hasSPCBlock] at h
    obtain ⟨h1, _⟩ := Bool.or_eq_false_iff.mp h
    exact Option.not_isSome_iff_eq_none.mp (by rw [h1]; simp)

theorem hasSPCBlock_tail {c : Char} {t : Chars} (h : hasSPCBlock (c :: t) = false) :
    hasSPCBlock t = false := by
  rw [hasSPCBlock] at h
  exact (Bool.or_eq_false_iff.mp h).2

theorem findSPCBlock_inv {s attrs body rest : Chars}
    (h : findSPCBlock s = some ((attrs, body), rest)) :
    s = spcOpen ++ attrs ++ '>' :: (body ++ spcClose ++ rest) ∧
    '>' ∉ attrs ∧
    (∀ b2 r2, body ++ spcClose ++ rest = b2 ++ spcClose ++ r2 →
      body.length ≤ b2.length) := by
  unfold findSPCBlock at h
  by_cases hb : begins spcOpen s = true
  · rw [if_pos hb] at h
    cases hs : splitAtChar '>' (s.drop spcOpen.length) with
    | none => rw [hs] at h; simp at h
    | some at0 =>
      obtain ⟨attrs0, t⟩ := at0
      rw [hs] at h
      cases ht : splitAtSub spcClose t with
      | none => simp [ht] at h
      | some br =>
        obtain ⟨body0, rest0⟩ := br
        simp [ht] at h
        obtain ⟨⟨h1, h2⟩, h3⟩ := h
        subst h1
        subst h2
        subst h3
        refine ⟨?_, splitAtChar_not_mem hs, ?_⟩
        · conv_lhs => rw [begins_eq hb, splitAtChar_eq hs, splitAtSub_eq ht]
          simp
        · intro b2 r2 heq
          exact splitAtSub_first ht b2 r2 (by rw [← splitAtSub_eq ht] at heq; exact heq)
  · rw [if_neg hb] at h
    simp at h

theorem removeSPC_decomp :
    ∀ fuel s, s.length ≤ fuel → hasSPCBlock s = true →
      ∃ pre attrs body rest,
        s = pre ++ spcOpen ++ attrs ++ '>' :: (body ++ spcClose ++ rest) ∧
        '>' ∉ attrs ∧
        (runRwF spcRw fuel s).1 = pre ++ removeSecurePropertiesConfig rest ∧
        (∀ j, j < pre.length → findSPCBlock (s.drop j) = none) ∧
        (∀ b2 r2, body ++ spcClose ++ rest = b2 ++ spcClose ++ r2 →
          body.length ≤ b2.length) := by
  intro fuel
  induction fuel with
  | zero =>
    intro s h1 h2
    have : s = [] := List.length_eq_zero.mp (Nat.le_zero.mp h1)
    subst this
    rw [hasSPCBlock] at h2
    cases h2
  | succ n ih =>
    intro s h1 h2
    cases s with
    | nil => rw [hasSPCBlock] at h2; cases h2
    | cons c cs =>
      rw [runRwF]
      cases hf : spcRw.toMatcher.find (c :: cs) with
      | some br =>
        obtain ⟨b, rest⟩ := br
        obtain ⟨attrs, body⟩ := b
        have hinv := findSPCBlock_inv (show findSPCBlock (c :: cs) = _ from hf)
        have hr : rest.length ≤ cs.length := find_rest_le spcRw.toMatcher hf
        refine ⟨[], attrs, body, rest, by simpa using hinv.1, hinv.2.1, ?_, ?_, hinv.2.2⟩
        · simp only [List.nil_append]
          unfold removeSecurePropertiesConfig runRw
          exact congrArg Prod.fst
            (runRwF_fuel_irrel spcRw n rest.length rest
              (le_trans hr (len_cons_le h1)) le_rfl)
        · intro j hj
          simp at hj
      | none =>
        have h2' : hasSPCBlock cs = true := by
          rw [hasSPCBlock] at h2
          rw [show findSPCBlock (c :: cs) = none from hf] at h2
          simpa using h2
        obtain ⟨pre, attrs, body, rest, hdec, hat, hres, hfirst, hmin⟩ :=
          ih cs (len_cons_le h1) h2'
        refine ⟨c :: pre, attrs, body, rest, by simp [hdec], hat, ?_, ?_, hmin⟩
        · simp only
          rw [hres]
          simp
        · intro j hj
          cases j with
          | zero => exact (show findSPCBlock (c :: cs) = none from hf)
          | succ j0 =>
            have : j0 < pre.length := by simpa using hj
            simpa using hfirst j0 this

/-- C8: `removeSecurePropertiesConfig` returns content with no
secure-properties block byte-identically unchanged; on content containing a
block, it deletes the first such block - delimited by the opening tag (with
a greedy attribute run free of closing angle brackets), the shortest body
reaching a close tag (non-greedy, newlines included), and the close tag -
before whose start no match exists, and processes the remaining text the
same way, so every independent block of the file is removed. -/
theorem C8_remove_secure_properties_block (content : Chars) :
    (hasSPCBlock content = false → removeSecurePropertiesConfig content = content) ∧
    (hasSPCBlock content = true → ∃ pre attrs body rest,
      content = pre ++ spcOpen ++ attrs ++ '>' :: (body ++ spcClose ++ rest) ∧
      '>' ∉ attrs ∧
      removeSecurePropertiesConfig content = pre ++ removeSecurePropertiesConfig rest ∧
      (∀ j, j < pre.length → findSPCBlock (content.drop j) = none) ∧
      (∀ b2 r2, body ++ spcClose ++ rest = b2 ++ spcClose ++ r2 →
        body.length ≤ b2.length)) := by
  constructor
  · intro h
    unfold removeSecurePropertiesConfig
    rw [runRw_id_of_none spcRw hasSPCBlock
      (fun t ht => hasSPCBlock_false_none ht)
      (fun c t ht => hasSPCBlock_tail ht) h]
  · intro h
    exact removeSPC_decomp content.length content le_rfl h

end MuleBuild

namespace MuleBuild

theorem keepViolation_some {pats : List Chars} {n : Nat} {txt : Chars → Chars}
    {ob : Nat × Chars} {v : Violation} :
    keepViolation pats n txt ob = some v ↔
      begins securePre ob.2 = false ∧ sensitiveTest pats ob.2 = true ∧
        v = ⟨ob.2, n, txt ob.2⟩ := by
  constructor
  · intro h
    unfold keepViolation at h
    by_cases h1 : begins securePre ob.2 = true
    · rw [if_pos h1] at h; cases h
    · rw [if_neg h1] at h
      by_cases h2 : sensitiveTest pats ob.2 = true
      · rw [if_pos h2] at h
        injection h with h3
        exact ⟨by simpa using h1, h2, h3.symm⟩
      · rw [if_neg h2] at h; cases h
  · rintro ⟨h1, h2, rfl⟩
    unfold keepViolation
    rw [if_neg (by simp [h1]), if_pos h2]

theorem lineViolations_line {pats : List Chars} {n : Nat} {l : Chars} {v : Violation}
    (h : v ∈ lineViolations pats n l) : v.line = n := by
  unfold lineViolations at h
  rcases List.mem_append.mp h with h1 | h1 <;>
  · obtain ⟨ob, _, hk⟩ := List.mem_filterMap.mp h1
    obtain ⟨_, _, rfl⟩ := keepViolation_some.mp hk
    rfl

theorem scan_line_lb (pats : List Chars) :
    ∀ (ls : List Chars) (k : Nat) (v : Violation),
      v ∈ (List.enumFrom k ls).flatMap (fun il => lineViolations pats (il.1 + 1) il.2) →
      k + 1 ≤ v.line := by
  intro ls
  induction ls with
  | nil => intro k v h; simp at h
  | cons x xs ih =>
    intro k v h
    rw [List.enumFrom_cons, List.flatMap_cons] at h
    rcases List.mem_append.mp h with h1 | h1
    · rw [lineViolations_line h1]
    · have := ih (k + 1) v h1
      omega

theorem scan_pairwise (pats : List Chars) :
    ∀ (ls : List Chars) (k : Nat),
      List.Pairwise (fun u v => u.line ≤ v.line)
        ((List.enumFrom k ls).flatMap (fun il => lineViolations pats (il.1 + 1) il.2)) := by
  intro ls
  induction ls with
  | nil => intro k; simp
  | cons x xs ih =>
    intro k
    rw [List.enumFrom_cons, List.flatMap_cons, List.pairwise_append]
    refine ⟨?_, ih (k + 1), ?_⟩
    · apply List.pairwise_of_forall_mem_list
      intro a ha b hb
      rw [lineViolations_line ha, lineViolations_line hb]
    · intro a ha b hb
      rw [lineViolations_line ha]
      have := scan_line_lb pats xs (k + 1) b hb
      omega

theorem scan_filter_line (pats : List Chars) :
    ∀ (ls : List Chars) (k i : Nat) (hi : i < ls.length),
      ((List.enumFrom k ls).flatMap
        (fun il => lineViolations pats (il.1 + 1) il.2)).filter
          (fun v => v.line = k + i + 1) = lineViolations pats (k + i + 1) ls[i] := by
  intro ls
  induction ls with
  | nil => intro k i hi; simp at hi
  | cons x xs ih =>
    intro k i hi
    rw [List.enumFrom_cons, List.flatMap_cons, List.filter_append]
    cases i with
    | zero =>
      have h1 : (lineViolations pats (k + 1) x).filter
          (fun v => v.line = k + 0 + 1) = lineViolations pats (k + 1) x := by
        apply List.filter_eq_self.mpr
        intro a ha
        rw [lineViolations_line ha]
        simp
      have h2 : ((List.enumFrom (k + 1) xs).flatMap
          (fun il => lineViolations pats (il.1 + 1) il.2)).filter
            (fun v => v.line = k + 0 + 1) = [] := by
        apply List.filter_eq_nil_iff.mpr
        intro a ha
        have := scan_line_lb pats xs (k + 1) a ha
        simp only [decide_eq_true_eq]
        omega
      rw [h1, h2]
      simp
    | succ i0 =>
      have h1 : (lineViolations pats (k + 1) x).filter
          (fun v => v.line = k + (i0 + 1) + 1) = [] := by
        apply List.filter_eq_nil_iff.mpr
        intro a ha
        rw [lineViolations_line ha]
        simp only [decide_eq_true_eq]
        omega
      rw [h1]
      have h2 := ih (k + 1) i0 (by simpa using hi)
      simp only [show k + 1 + i0 + 1 = k + (i0 + 1) + 1 from by omega] at h2
      rw [h2]
      simp

theorem mem_enumFrom_self {α : Type} :
    ∀ (ls : List α) (k i : Nat) (hi : i < ls.length),
      (k + i, ls[i]) ∈ List.enumFrom k ls := by
  intro ls
  induction ls with
  | nil => intro k i hi; simp at hi
  | cons x xs ih =>
    intro k i hi
    rw [List.enumFrom_cons]
    cases i with
    | zero => simp
    | succ i0 =>
      have := ih (k + 1) i0 (by simpa using hi)
      rw [List.getElem_cons_succ]
      refine List.mem_cons.mpr (Or.inr ?_)
      simpa [show k + (i0 + 1) = k + 1 + i0 from by omega] using this

/-- C7 counterexample: on a single line holding the call-form match
`Mule::p('aa.password')` at column 0 followed by the brace-form match
`${zz.password}` at column 23, the scanner reports the brace-form match
first - the emitted order is not the left-to-right match order within the
line. -/
theorem C7_scan_order_cex :
    (findUnsecuredProperties
        "Mule::p(\x27aa.password\x27) $\x7bzz.password\x7d".toList
        DEFAULT_SENSITIVE_PATTERNS).map Violation.property =
      ["zz.password".toList, "aa.password".toList] ∧
    occs anyDWM 0 "Mule::p(\x27aa.password\x27) $\x7bzz.password\x7d".toList =
      [(0, "aa.password".toList)] ∧
    occs anyBraceM 0 "Mule::p(\x27aa.password\x27) $\x7bzz.password\x7d".toList =
      [(23, "zz.password".toList)] := by
  decide

/-- C7 (amended): `findUnsecuredProperties` reports exactly the brace-form
and call-form matches whose property name does not begin with `secure::`
and tests sensitive, each with the 1-based number of the line it occurs on
and the matched text, which really occurs on that line; violations are
ordered by line number; and within one line the brace-form matches come
first in left-to-right match order, then the call-form matches in
left-to-right match order (not globally left-to-right across both forms). -/
theorem C7_scan_characterization (content : Chars) (pats : List Chars) :
    List.Pairwise (fun u v => u.line ≤ v.line)
      (findUnsecuredProperties content pats) ∧
    (∀ i (hi : i < (splitLines content).length),
      (findUnsecuredProperties content pats).filter (fun v => v.line = i + 1) =
        lineViolations pats (i + 1) (splitLines content)[i]) ∧
    (∀ v ∈ findUnsecuredProperties content pats,
      begins securePre v.property = false ∧ sensitiveTest pats v.property = true ∧
      1 ≤ v.line ∧ v.line ≤ (splitLines content).length ∧
      ∃ pre suf : Chars,
        (splitLines content)[v.line - 1]? = some (pre ++ v.value ++ suf)) ∧
    (∀ i (hi : i < (splitLines content).length) (col : Nat) (prop : Chars),
      ((col, prop) ∈ occs anyBraceM 0 (splitLines content)[i] →
        begins securePre prop = false → sensitiveTest pats prop = true →
        (⟨prop, i + 1, anyBraceM.text prop⟩ : Violation) ∈
          findUnsecuredProperties content pats) ∧
      ((col, prop) ∈ occs anyDWM 0 (splitLines content)[i] →
        begins securePre prop = false → sensitiveTest pats prop = true →
        (⟨prop, i + 1, anyDWM.text prop⟩ : Violation) ∈
          findUnsecuredProperties content pats)) ∧
    (∀ l : Chars, List.Pairwise (fun x y => x.1 < y.1) (occs anyBraceM 0 l) ∧
      List.Pairwise (fun x y => x.1 < y.1) (occs anyDWM 0 l)) := by
  refine ⟨scan_pairwise pats (splitLines content) 0, ?_, ?_, ?_, ?_⟩
  · intro i hi
    have := scan_filter_line pats (splitLines content) 0 i hi
    simpa using this
  · intro v hv
    obtain ⟨il, hil, hlv⟩ := List.mem_flatMap.mp hv
    obtain ⟨i, x⟩ := il
    obtain ⟨_, hi2, hx⟩ := List.mem_enumFrom hil
    simp only [Nat.zero_add, Nat.sub_zero] at hi2 hx
    have hgx : (splitLines content)[i]? = some x := by
      rw [List.getElem?_eq_getElem hi2, hx]
    dsimp only at hlv
    unfold lineViolations at hlv
    have main : ∀ (M : Matcher Chars),
        v ∈ (occs M 0 x).filterMap (keepViolation pats (i + 1) M.text) →
        begins securePre v.property = false ∧ sensitiveTest pats v.property = true ∧
        1 ≤ v.line ∧ v.line ≤ (splitLines content).length ∧
        ∃ pre suf : Chars,
          (splitLines content)[v.line - 1]? = some (pre ++ v.value ++ suf) := by
      intro M hmem
      obtain ⟨ob, hob, hk⟩ := List.mem_filterMap.mp hmem
      obtain ⟨h1, h2, rfl⟩ := keepViolation_some.mp hk
      obtain ⟨col, prop⟩ := ob
      obtain ⟨pre, suf, hline, _⟩ := occs_sound M hob
      refine ⟨h1, h2, by simp, by simpa using hi2, pre, suf, ?_⟩
      simp only [Nat.add_sub_cancel]
      rw [hgx, hline]
    rcases List.mem_append.mp hlv with h1 | h1
    · exact main anyBraceM h1
    · exact main anyDWM h1
  · intro i hi col prop
    have henum : (i, (splitLines content)[i]) ∈ (splitLines content).enum := by
      have := mem_enumFrom_self (splitLines content) 0 i hi
      simpa using this
    constructor
    · intro hocc h1 h2
      apply List.mem_flatMap.mpr
      refine ⟨(i, (splitLines content)[i]), henum, ?_⟩
      unfold lineViolations
      apply List.mem_append.mpr
      left
      apply List.mem_filterMap.mpr
      exact ⟨(col, prop), hocc, keepViolation_some.mpr ⟨h1, h2, rfl⟩⟩
    · intro hocc h1 h2
      apply List.mem_flatMap.mpr
      refine ⟨(i, (splitLines content)[i]), henum, ?_⟩
      unfold lineViolations
      apply List.mem_append.mpr
      right
      apply List.mem_filterMap.mpr
      exact ⟨(col, prop), hocc, keepViolation_some.mpr ⟨h1, h2, rfl⟩⟩
  · intro l
    exact ⟨occs_strict anyBraceM 0 l, occs_strict anyDWM 0 l⟩

end MuleBuild

namespace MuleBuild

/-- A path as a list of segments. -/
abbrev Path := List String

/-- A file system as an association list from paths to contents, searched
front to back so that a prepended entry shadows older ones. -/
abbrev FS := List (Path × Chars)

/-- Read a file. -/
def lookupFS : FS → Path → Option Chars
  | [], _ => none
  | (q, v) :: rest, p => if q = p then some v else lookupFS rest p

/-- `writeFileSync`: a write prepends the binding, shadowing any older one. -/
def writeFS (p : Path) (v : Chars) (fs : FS) : FS := (p, v) :: fs

/-- `unlinkSync`. -/
def removeFile (p : Path) (fs : FS) : FS := fs.filter (fun e => !decide (e.1 = p))

/-- `rmSync(dir, recursive+force)`: drop every file at or under the path. -/
def removeUnder (d : Path) (fs : FS) : FS := fs.filter (fun e => !begins d e.1)

/-- The distinct paths present. -/
def keysFS (fs : FS) : List Path := (fs.map Prod.fst).dedup

/-- `existsSync p`: some file lies at or under p. -/
def existsFS (fs : FS) (p : Path) : Bool := fs.any (fun e => begins p e.1)

/-- `statSync(p).isDirectory()`: some file lies strictly under p. -/
def isDirFS (fs : FS) (p : Path) : Bool :=
  fs.any (fun e => begins p e.1 && !decide (e.1 = p))

/-- `name.endsWith(suffix)` over a segment name. -/
def endsWithStr (suffix name : String) : Bool :=
  begins suffix.toList (name.toList.drop (name.toList.length - suffix.toList.length))

/-- Whether a path's file name ends in `.xml`. -/
def isXmlPath (p : Path) : Bool :=
  match p.getLast? with
  | some nm => endsWithStr ".xml" nm
  | none => false

/-- `getXmlFiles` of `XmlProcessor.ts` over the file-system model: for an
existing directory, every file strictly under it whose name ends in `.xml`
(the recursive walk is enumerated over the file map, in map order); a
non-existent target yields the empty list, not an error. -/
def getXmlFilesFS (fs : FS) (d : Path) : List Path :=
  if existsFS fs d then
    (keysFS fs).filter (fun p => begins d p && !decide (p = d) && isXmlPath p)
  else []

/-- `path.relative(base, f)` for a file under base. -/
def relPath (base f : Path) : Path := f.drop base.length

/-- The per-file loop of `stripSecure`: read, strip, and when the count is
positive record the file (relative to cwd) and write the result back. -/
def stripFilesGo (cwd : Path) : FS → List Path → FS × List Path × Nat
  | fs, [] => (fs, [], 0)
  | fs, f :: rest =>
    let content := (lookupFS fs f).getD []
    let r := stripSecureFromContent content
    if 0 < r.2 then
      let next := stripFilesGo cwd (writeFS f r.1 fs) rest
      (next.1, relPath cwd f :: next.2.1, r.2 + next.2.2)
    else
      stripFilesGo cwd fs rest

/-- `stripSecure` of `XmlProcessor.ts` (non-dry mode, as the orchestrator
invokes it): stat the target (caught as an error when absent), resolve the
file set (directory walk or the single file), then strip each file,
writing back only files with a positive count and reporting their
cwd-relative paths as processed. -/
def stripSecureFS (fs : FS) (target cwd : Path) :
    Except String (FS × List Path × Nat) :=
  if existsFS fs target then
    let files := if isDirFS fs target then getXmlFilesFS fs target else [target]
    .ok (stripFilesGo cwd fs files)
  else .error "ENOENT"

/-- `enforceSecure` of `XmlProcessor.ts`: scan every file of the resolved
set with `findUnsecuredProperties`, reporting (relative file, violation)
pairs in file order; the run is valid when no violation is reported. -/
def enforceSecureFS (fs : FS) (target cwd : Path) (pats : List Chars) :
    Except String (List (Path × Violation)) :=
  if existsFS fs target then
    let files := if isDirFS fs target then getXmlFilesFS fs target else [target]
    .ok (files.flatMap (fun f =>
      (findUnsecuredProperties ((lookupFS fs f).getD []) pats).map
        (fun v => (relPath cwd f, v))))
  else .error "ENOENT"

/-- Head match of `<tag>([^<]+)</tag>`: open literal, a non-empty body free
of angle brackets (the greedy run up to the next one), then the close
literal. -/
def matchTagAt (openT closeT : Chars) (s : Chars) : Option Chars :=
  if begins openT s then
    let t := s.drop openT.length
    let body := t.takeWhile (fun d => !decide (d = '<'))
    if body.isEmpty then none
    else if begins closeT (t.drop body.length) then some body
    else none
  else none

/-- First match of `<tag>([^<]+)</tag>` over content (the regex scanner
advances one position when the pattern fails). -/
def firstTag (openT closeT : Chars) : Chars → Option Chars
  | [] => none
  | c :: cs =>
    match matchTagAt openT closeT (c :: cs) with
    | some b => some b
    | none => firstTag openT closeT cs

/-- Open literal of the pom version tag. -/
def versionOpen : Chars := "<version>".toList

/-- Close literal of the pom version tag. -/
def versionClose : Chars := "</version>".toList

/-- Open literal of the pom name tag. -/
def nameOpen : Chars := "<name>".toList

/-- Close literal of the pom name tag. -/
def nameClose : Chars := "</name>".toList

/-- Open literal of the pom artifactId tag. -/
def artifactOpen : Chars := "<artifactId>".toList

/-- Close literal of the pom artifactId tag. -/
def artifactClose : Chars := "</artifactId>".toList

/-- `getVersion` of `PomParser.ts`: the first `<version>` tag body. -/
def getVersionC (pom : Chars) : Option Chars := firstTag versionOpen versionClose pom

/-- `getProjectName` of `PomParser.ts`: prefer the first `<name>`, fall
back to the first `<artifactId>`, then to `mule-app`. -/
def getProjectNameC (pom : Chars) : Chars :=
  match firstTag nameOpen nameClose pom with
  | some n => n
  | none =>
    match firstTag artifactOpen artifactClose pom with
    | some a => a
    | none => "mule-app".toList

/-- Head match of `<name>[^<]*</name>` (the body may be empty): the rest
after the match. -/
def matchNameTagAt (s : Chars) : Option Chars :=
  if begins nameOpen s then
    let t := s.drop nameOpen.length
    let body := t.takeWhile (fun d => !decide (d = '<'))
    if begins nameClose (t.drop body.length) then
      some (t.drop (body.length + nameClose.length))
    else none
  else none

/-- Replace the first `<name>...</name>` by `<name>nm</name>`; identity
when the pattern matches nowhere. -/
def replaceNameFirst (nm : Chars) : Chars → Chars
  | [] => []
  | c :: cs =>
    match matchNameTagAt (c :: cs) with
    | some rest => nameOpen ++ nm ++ nameClose ++ rest
    | none => c :: replaceNameFirst nm cs

/-- `setName`'s content transform of `PomParser.ts`: the source guards on
`content.includes('<name>')` and then replaces the first full tag match. -/
def setNameContent (nm : Chars) (content : Chars) : Chars :=
  if occursIn nameOpen content then replaceNameFirst nm content else content

/-- External events of one orchestration run: the maven invocations and
every file write/delete, in order. -/
inductive Ev where
  | clean
  | build
  | write (p : Path)
  | unlink (p : Path)
  | rmTree (p : Path)
deriving DecidableEq, Repr

/-- Outcomes of the external collaborators of `packageProject` (pre-flight
check, config load, maven, `findBuiltJar`) and the ambient metadata
(timestamp, operator, host) it embeds in names and the manifest. -/
structure Oracle where
  canBuild : Bool
  configOk : Bool
  cleanOk : Bool
  buildOk : Bool
  builtJar : Option Path
  timestamp : String
  builtBy : String
  machine : String

/-- The `packageProject` options the core path consumes (the remaining
options only configure the external maven invocation). -/
structure PkgOptions where
  environment : Option String
  stripSecure : Bool
  version : Option String

/-- The success value of `packageProject`: final jar path and name. -/
structure PkgResult where
  jarPath : Path
  packageName : String
deriving DecidableEq, Repr

/-- `join(cwd, 'pom.xml')`. -/
def pomPath (cwd : Path) : Path := cwd ++ ["pom.xml"]

/-- `join(cwd, 'pom.xml.bak')` - the fixed descriptor backup location. -/
def pomBakPath (cwd : Path) : Path := cwd ++ ["pom.xml.bak"]

/-- `join(cwd, 'src', 'main', 'mule')` - the config tree. -/
def muleDirPath (cwd : Path) : Path := cwd ++ ["src", "main", "mule"]

/-- `join(cwd, '.mule-build-backup')` - the fixed config-tree backup
location `packageProject` derives for a project directory. -/
def backupDirPath (cwd : Path) : Path := cwd ++ [".mule-build-backup"]

/-- `join(muleDir, 'global.xml')`. -/
def globalXmlPath (cwd : Path) : Path := muleDirPath cwd ++ ["global.xml"]

/-- `join(cwd, 'target')`. -/
def targetDirPath (cwd : Path) : Path := cwd ++ ["target"]

/-- `copyFileSync` over a list of (source, destination) pairs, in order. -/
def copyFilesFS : FS → List (Path × Path) → FS
  | fs, [] => fs
  | fs, (s, d) :: rest => copyFilesFS (writeFS d ((lookupFS fs s).getD []) fs) rest

/-- `backupXmlFiles` of the package API: nothing when the source directory
does not exist; otherwise copy every xml file into the backup directory
preserving relative paths, returning the backed-up (source) files. -/
def backupXmlFilesFS (fs : FS) (srcDir bkDir : Path) : FS × List Path :=
  if existsFS fs srcDir then
    let files := getXmlFilesFS fs srcDir
    (copyFilesFS fs (files.map (fun f => (f, bkDir ++ relPath srcDir f))), files)
  else (fs, [])

/-- `restoreXmlFiles` of the package API: nothing when the backup directory
does not exist; otherwise copy every xml file of the backup back to its
original path and remove the backup directory tree. -/
def restoreXmlFilesFS (fs : FS) (srcDir bkDir : Path) : FS × List Ev :=
  if existsFS fs bkDir then
    let files := getXmlFilesFS fs bkDir
    let fs2 := copyFilesFS fs (files.map (fun b => (b, srcDir ++ relPath bkDir b)))
    (removeUnder bkDir fs2,
      files.map (fun b => Ev.write (srcDir ++ relPath bkDir b)) ++ [Ev.rmTree bkDir])
  else (fs, [])

/-- The strip step of the try body of `packageProject`: run the per-file
strip over the config tree (an errored run falls through with no change),
then remove the secure-properties block from `global.xml`, writing it only
when the content changed. -/
def stripStepFS (cwd : Path) (fs : FS) : FS × List Ev :=
  let s1 : FS × List Ev :=
    match stripSecureFS fs (muleDirPath cwd) cwd with
    | .ok (fs1, written, _) =>
      (fs1, written.map (fun rel => Ev.write (cwd ++ rel)))
    | .error _ => (fs, [])
  match lookupFS s1.1 (globalXmlPath cwd) with
  | some content =>
    let newC := removeSecurePropertiesConfig content
    if !decide (newC = content) then
      (writeFS (globalXmlPath cwd) newC s1.1, s1.2 ++ [Ev.write (globalXmlPath cwd)])
    else s1
  | none => s1

/-- The production enforcement gate of `packageProject`: fail exactly when
the environment is production and the violation scan succeeds with a
non-empty report (an errored scan falls through, as in the source). -/
def enforceFailFS (opts : PkgOptions) (cwd : Path) (fs : FS) : Bool :=
  if opts.environment = some "production" then
    match enforceSecureFS fs (muleDirPath cwd) cwd DEFAULT_SENSITIVE_PATTERNS with
    | .ok vs => !vs.isEmpty
    | .error _ => false
  else false

/-- `setName` over the file-system model: rewrite the first name tag of the
descriptor; a missing descriptor is an ignored error with no write. -/
def setNameFS (cwd : Path) (envName : String) (fs : FS) : FS × List Ev :=
  match lookupFS fs (pomPath cwd) with
  | some pc =>
    (writeFS (pomPath cwd) (setNameContent envName.toList pc) fs,
      [Ev.write (pomPath cwd)])
  | none => (fs, [])

/-- The try body of `packageProject`: maven clean (failure only logged),
the optional strip step, the optional production enforcement (a hard error
on violations), the package-name edit of the descriptor, the maven build,
jar lookup, jar copy under the timestamped final name and the manifest
write (manifest body abridged to its identifying fields; the free-text
change list is log-only data). -/
def pkgTryBody (o : Oracle) (opts : PkgOptions) (cwd : Path)
    (projectName version : String) (fs : FS) :
    Except String PkgResult × FS × List Ev :=
  let evs0 : List Ev := [Ev.clean]
  let stripStep : FS × List Ev :=
    if opts.stripSecure then stripStepFS cwd fs else (fs, [])
  let fsA := stripStep.1
  let evsA := stripStep.2
  if enforceFailFS opts cwd fsA then
    (.error "Security validation failed. Use secure:: prefix for sensitive properties.",
      fsA, evs0 ++ evsA)
  else
    let envSuffix := match opts.environment with | some e => "-" ++ e | none => ""
    let stripSuffix :=
      if opts.stripSecure && decide (opts.environment = none) then "-local" else ""
    let envName := projectName ++ envSuffix ++ stripSuffix ++ "-" ++ version
    let setN := setNameFS cwd envName fsA
    let fsB := setN.1
    let evsB := setN.2
    if !o.buildOk then
      (.error "Maven build failed", fsB, evs0 ++ evsA ++ evsB ++ [Ev.build])
    else
      match o.builtJar with
      | none => (.error "Could not find built JAR", fsB,
          evs0 ++ evsA ++ evsB ++ [Ev.build])
      | some jarP =>
        let finalName := projectName ++ envSuffix ++ stripSuffix ++ "-" ++ version ++
          "-" ++ o.timestamp ++ ".jar"
        let finalPath := targetDirPath cwd ++ [finalName]
        let fsC := writeFS finalPath ((lookupFS fsB jarP).getD []) fsB
        let infoPath := targetDirPath cwd ++ ["deployment-info.txt"]
        let infoContent := ("Package: " ++ finalName ++ " version: " ++ version ++
          " built by: " ++ o.builtBy ++ " machine: " ++ o.machine ++
          " date: " ++ o.timestamp).toList
        let fsD := writeFS infoPath infoContent fsC
        (.ok ⟨finalPath, finalName⟩, fsD,
          evs0 ++ evsA ++ evsB ++ [Ev.build, Ev.write finalPath, Ev.write infoPath])

/-- The finally block of `packageProject`: restore the descriptor from its
backup (result ignored), delete the backup file when present, and restore
the config tree when it was backed up. -/
def pkgCleanup (cwd : Path) (backedUp : Bool) (fs : FS) : FS × List Ev :=
  let r1 : FS × List Ev :=
    match lookupFS fs (pomBakPath cwd) with
    | some c => (writeFS (pomPath cwd) c fs, [Ev.write (pomPath cwd)])
    | none => (fs, [])
  let r2 : FS × List Ev :=
    if existsFS r1.1 (pomBakPath cwd) then
      (removeFile (pomBakPath cwd) r1.1, r1.2 ++ [Ev.unlink (pomBakPath cwd)])
    else r1
  if backedUp then
    let r3 := restoreXmlFilesFS r2.1 (muleDirPath cwd) (backupDirPath cwd)
    (r3.1, r2.2 ++ r3.2)
  else r2

/-- `packageProject` of the package API over the file-system model.  The
pre-try phase (pre-flight check, config load, name/version lookup, the
descriptor backup, the conditional config-tree backup) runs first; its
early failures return without cleanup, exactly as the source returns
before entering `try`; afterwards the try body and the finally cleanup
always run in sequence. -/
def packageProject (o : Oracle) (opts : PkgOptions) (cwd : Path) (fs0 : FS) :
    Except String PkgResult × FS × List Ev :=
  if !o.canBuild then (.error "Build requirements not met", fs0, [])
  else if !o.configOk then (.error "Failed to load configuration", fs0, [])
  else
    let pomC := lookupFS fs0 (pomPath cwd)
    let projectName : String :=
      match pomC with
      | some c => ⟨getProjectNameC c⟩
      | none => "mule-app"
    let version : String :=
      match opts.version with
      | some v => v
      | none =>
        match pomC with
        | some c =>
          match getVersionC c with
          | some v => ⟨v⟩
          | none => "1.0.0"
        | none => "1.0.0"
    let b1 : FS × List Ev :=
      match pomC with
      | some c => (writeFS (pomBakPath cwd) c fs0, [Ev.write (pomBakPath cwd)])
      | none => (fs0, [])
    let b2 : FS × List Ev × Bool :=
      if opts.stripSecure then
        let r := backupXmlFilesFS b1.1 (muleDirPath cwd) (backupDirPath cwd)
        (r.1,
          r.2.map (fun f => Ev.write (backupDirPath cwd ++ relPath (muleDirPath cwd) f)),
          !r.2.isEmpty)
      else (b1.1, [], false)
    let body := pkgTryBody o opts cwd projectName version b2.1
    let fin := pkgCleanup cwd b2.2.2 body.2.1
    (body.1, fin.1, b1.2 ++ b2.2.1 ++ body.2.2 ++ fin.2)

end MuleBuild

deriving instance DecidableEq for Except

namespace MuleBuild

theorem lookupFS_write_self (p : Path) (v : Chars) (fs : FS) :
    lookupFS (writeFS p v fs) p = some v := by
  simp [lookupFS, writeFS]

theorem lookupFS_write_ne {q p : Path} (v : Chars) (fs : FS) (h : q ≠ p) :
    lookupFS (writeFS p v fs) q = lookupFS fs q := by
  rw [writeFS, lookupFS, if_neg (fun he => h he.symm)]

theorem lookupFS_removeFile_self (p : Path) (fs : FS) :
    lookupFS (removeFile p fs) p = none := by
  induction fs with
  | nil => rfl
  | cons e rest ih =>
    obtain ⟨q, v⟩ := e
    by_cases hq : q = p
    · simpa [removeFile, hq] using ih
    · simpa [removeFile, lookupFS, hq] using ih

theorem lookupFS_removeFile_ne {q p : Path} (fs : FS) (h : q ≠ p) :
    lookupFS (removeFile p fs) q = lookupFS fs q := by
  induction fs with
  | nil => rfl
  | cons e rest ih =>
    obtain ⟨x, v⟩ := e
    by_cases hx : x = p
    · subst hx
      rw [show removeFile x ((x, v) :: rest) = removeFile x rest from by
        simp [removeFile]]
      rw [ih, lookupFS, if_neg (fun he => h he.symm)]
    · rw [show removeFile p ((x, v) :: rest) = (x, v) :: removeFile p rest from by
        simp [removeFile, hx]]
      rw [lookupFS, lookupFS]
      by_cases hxq : x = q
      · rw [if_pos hxq, if_pos hxq]
      · rw [if_neg hxq, if_neg hxq, ih]

theorem lookupFS_removeUnder_in {d q : Path} (fs : FS) (h : begins d q = true) :
    lookupFS (removeUnder d fs) q = none := by
  induction fs with
  | nil => rfl
  | cons e rest ih =>
    obtain ⟨x, v⟩ := e
    by_cases hx : begins d x = true
    · simpa [removeUnder, hx] using ih
    · have hxq : x ≠ q := fun he => hx (he ▸ h)
      simpa [removeUnder, lookupFS, hx, hxq] using ih

theorem lookupFS_removeUnder_out {d q : Path} (fs : FS) (h : begins d q = false) :
    lookupFS (removeUnder d fs) q = lookupFS fs q := by
  induction fs with
  | nil => rfl
  | cons e rest ih =>
    obtain ⟨x, v⟩ := e
    by_cases hx : begins d x = true
    · have hxq : x ≠ q := fun he => by rw [he] at hx; rw [hx] at h; cases h
      simpa [removeUnder, lookupFS, hx, hxq] using ih
    · by_cases hxq : x = q
      · subst hxq
        simp [removeUnder, lookupFS, hx]
      · simpa [removeUnder, lookupFS, hx, hxq] using ih

theorem lookupFS_ne_none_of_mem {p : Path} {v : Chars} {fs : FS}
    (h : (p, v) ∈ fs) : lookupFS fs p ≠ none := by
  induction fs with
  | nil => simp at h
  | cons e rest ih =>
    obtain ⟨x, w⟩ := e
    rcases List.mem_cons.mp h with h1 | h1
    · injection h1 with h1a h1b
      subst h1a
      simp [lookupFS]
    · by_cases hx : x = p
      · simp [lookupFS, hx]
      · simpa [lookupFS, hx] using ih h1

theorem mem_keysFS_of_lookup {fs : FS} {p : Path} {v : Chars}
    (h : lookupFS fs p = some v) : p ∈ keysFS fs := by
  unfold keysFS
  rw [List.mem_dedup]
  induction fs with
  | nil => simp [lookupFS] at h
  | cons e rest ih =>
    obtain ⟨x, w⟩ := e
    by_cases hx : x = p
    · simp [hx]
    · rw [lookupFS, if_neg hx] at h
      simpa using Or.inr (ih h)

theorem lookupFS_eq_none_of_not_mem {fs : FS} {p : Path}
    (h : p ∉ keysFS fs) : lookupFS fs p = none := by
  unfold keysFS at h
  rw [List.mem_dedup] at h
  induction fs with
  | nil => rfl
  | cons e rest ih =>
    obtain ⟨x, w⟩ := e
    simp only [List.map_cons, List.mem_cons] at h
    push_neg at h
    rw [lookupFS, if_neg (fun he => h.1 he.symm)]
    exact ih h.2

/-- Two subtree roots that differ in the segment after a common prefix are
disjoint: a path under the first is not under the second. -/
theorem begins_disjoint_heads {cwd : Path} {a b : String} (hab : b ≠ a)
    {x y q : Path} (h : begins (cwd ++ a :: x) q = true) :
    begins (cwd ++ b :: y) q = false := by
  have hq := begins_eq h
  rw [hq]
  have : cwd ++ a :: x ++ q.drop (cwd ++ a :: x).length =
      cwd ++ (a :: (x ++ q.drop (cwd ++ a :: x).length)) := by simp
  rw [this, begins_append_cancel cwd (b :: y) (a :: (x ++ q.drop (cwd ++ a :: x).length))]
  rw [begins]
  rw [decide_eq_false hab]
  rfl

theorem begins_refl_append {α : Type} [DecidableEq α] (p : List α) :
    begins p p = true := by
  have := begins_append_self p []
  simpa using this

end MuleBuild

namespace MuleBuild

theorem lookupFS_mem {fs : FS} {q : Path} {v : Chars}
    (h : lookupFS fs q = some v) : (q, v) ∈ fs := by
  induction fs with
  | nil => simp [lookupFS] at h
  | cons e rest ih =>
    obtain ⟨x, w⟩ := e
    by_cases hx : x = q
    · subst hx
      rw [lookupFS, if_pos rfl] at h
      injection h with h1
      subst h1
      exact List.mem_cons_self _ _
    · rw [lookupFS, if_neg hx] at h
      exact List.mem_cons_of_mem _ (ih h)

theorem existsFS_of_lookup {fs : FS} {d q : Path} {v : Chars}
    (hl : lookupFS fs q = some v) (hb : begins d q = true) :
    existsFS fs d = true := by
  unfold existsFS
  rw [List.any_eq_true]
  exact ⟨(q, v), lookupFS_mem hl, hb⟩

theorem existsFS_write (p : Path) (v : Chars) (fs : FS) (d : Path) :
    existsFS (writeFS p v fs) d = (begins d p || existsFS fs d) := by
  simp [existsFS, writeFS]

theorem keysFS_filter_write {pred : Path → Bool} {p : Path} (v : Chars) (fs : FS)
    (hp : pred p = false) :
    (keysFS (writeFS p v fs)).filter pred = (keysFS fs).filter pred := by
  unfold keysFS writeFS
  simp only [List.map_cons]
  by_cases hm : p ∈ fs.map Prod.fst
  · rw [List.dedup_cons_of_mem hm]
  · rw [List.dedup_cons_of_not_mem hm, List.filter_cons_of_neg (by simp [hp])]

theorem getXmlFilesFS_write_out {fs : FS} {p d : Path} (v : Chars)
    (h : begins d p = false) :
    getXmlFilesFS (writeFS p v fs) d = getXmlFilesFS fs d := by
  unfold getXmlFilesFS
  rw [existsFS_write, h, Bool.false_or]
  by_cases he : existsFS fs d = true
  · rw [if_pos he, if_pos he]
    exact keysFS_filter_write v fs (by simp [h])
  · rw [if_neg he, if_neg he]

theorem lookupFS_copyFiles_out :
    ∀ (ps : List (Path × Path)) (fs : FS) (q : Path),
      q ∉ ps.map Prod.snd → lookupFS (copyFilesFS fs ps) q = lookupFS fs q := by
  intro ps
  induction ps with
  | nil => intro fs q _; rfl
  | cons pr rest ih =>
    intro fs q hq
    obtain ⟨s, d⟩ := pr
    simp only [List.map_cons, List.mem_cons] at hq
    push_neg at hq
    rw [copyFilesFS, ih _ _ hq.2, lookupFS_write_ne _ _ hq.1]

theorem lookupFS_copyFiles_dest :
    ∀ (ps : List (Path × Path)) (fs : FS),
      (ps.map Prod.snd).Nodup →
      (∀ pr ∈ ps, pr.1 ∉ ps.map Prod.snd) →
      ∀ pr ∈ ps, lookupFS (copyFilesFS fs ps) pr.2 =
        some ((lookupFS fs pr.1).getD []) := by
  intro ps
  induction ps with
  | nil => intro fs _ _ pr hpr; simp at hpr
  | cons hd rest ih =>
    intro fs hnd hsrc pr hpr
    obtain ⟨s, d⟩ := hd
    rw [copyFilesFS]
    have hnd2 : (rest.map Prod.snd).Nodup := by
      simpa using (List.nodup_cons.mp (by simpa using hnd)).2
    rcases List.mem_cons.mp hpr with h1 | h1
    · subst h1
      have hd_not : d ∉ rest.map Prod.snd :=
        (List.nodup_cons.mp (by simpa using hnd)).1
      rw [lookupFS_copyFiles_out rest _ d hd_not]
      simp only
      rw [lookupFS_write_self]
    · have hs_ne : pr.1 ≠ d := by
        intro he
        have := hsrc pr (List.mem_cons_of_mem _ h1)
        rw [he] at this
        simp at this
      have ihr := ih (writeFS d ((lookupFS fs s).getD []) fs) hnd2
        (fun q hq => by
          have := hsrc q (List.mem_cons_of_mem _ hq)
          intro hc
          exact this (by simpa using Or.inr hc))
        pr h1
      rw [ihr, lookupFS_write_ne _ _ hs_ne]

end MuleBuild

namespace MuleBuild

theorem mem_getXmlFilesFS {fs : FS} {d f : Path} :
    f ∈ getXmlFilesFS fs d ↔
      existsFS fs d = true ∧ f ∈ keysFS fs ∧ begins d f = true ∧ f ≠ d ∧
        isXmlPath f = true := by
  unfold getXmlFilesFS
  by_cases he : existsFS fs d = true
  · rw [if_pos he]
    rw [List.mem_filter]
    simp only [Bool.and_eq_true, decide_eq_true_eq, Bool.not_eq_true']
    constructor
    · rintro ⟨h1, ⟨h2, h3⟩, h4⟩
      exact ⟨he, h1, h2, by simpa using h3, h4⟩
    · rintro ⟨_, h1, h2, h3, h4⟩
      exact ⟨h1, ⟨h2, by simpa using h3⟩, h4⟩
  · rw [if_neg he]
    simp only [List.not_mem_nil, false_iff]
    intro hc
    exact he hc.1

theorem getXmlFilesFS_nodup (fs : FS) (d : Path) : (getXmlFilesFS fs d).Nodup := by
  unfold getXmlFilesFS
  by_cases he : existsFS fs d = true
  · rw [if_pos he]
    exact (List.nodup_dedup _).filter _
  · rw [if_neg he]
    exact List.nodup_nil

theorem stripFilesGo_untouched (cwd : Path) :
    ∀ (files : List Path) (fs : FS) (q : Path), q ∉ files →
      lookupFS (stripFilesGo cwd fs files).1 q = lookupFS fs q := by
  intro files
  induction files with
  | nil => intro fs q _; rfl
  | cons f rest ih =>
    intro fs q hq
    simp only [List.mem_cons] at hq
    push_neg at hq
    rw [stripFilesGo]
    by_cases hz : 0 < (stripSecureFromContent ((lookupFS fs f).getD [])).2
    · rw [if_pos hz]
      simp only
      rw [ih _ _ hq.2, lookupFS_write_ne _ _ hq.1]
    · rw [if_neg hz]
      exact ih _ _ hq.2

theorem stripFilesGo_processed_sub (cwd : Path) :
    ∀ (files : List Path) (fs : FS) (rel : Path),
      rel ∈ (stripFilesGo cwd fs files).2.1 → ∃ g ∈ files, rel = relPath cwd g := by
  intro files
  induction files with
  | nil => intro fs rel h; simp [stripFilesGo] at h
  | cons f rest ih =>
    intro fs rel h
    rw [stripFilesGo] at h
    by_cases hz : 0 < (stripSecureFromContent ((lookupFS fs f).getD [])).2
    · rw [if_pos hz] at h
      simp only at h
      rcases List.mem_cons.mp h with h1 | h1
      · exact ⟨f, List.mem_cons_self _ _, h1⟩
      · obtain ⟨g, hg, hrel⟩ := ih _ _ h1
        exact ⟨g, List.mem_cons_of_mem _ hg, hrel⟩
    · rw [if_neg hz] at h
      obtain ⟨g, hg, hrel⟩ := ih _ _ h
      exact ⟨g, List.mem_cons_of_mem _ hg, hrel⟩

theorem relPath_inj {cwd f g : Path} (hf : begins cwd f = true)
    (hg : begins cwd g = true) (h : relPath cwd f = relPath cwd g) : f = g := by
  have h1 := begins_eq hf
  have h2 := begins_eq hg
  rw [h1, h2]
  unfold relPath at h
  rw [h]

theorem stripFilesGo_zero (cwd : Path) :
    ∀ (files : List Path) (fs : FS) (f : Path),
      (∀ g ∈ files, begins cwd g = true) → files.Nodup → f ∈ files →
      (stripSecureFromContent ((lookupFS fs f).getD [])).2 = 0 →
      lookupFS (stripFilesGo cwd fs files).1 f = lookupFS fs f ∧
      relPath cwd f ∉ (stripFilesGo cwd fs files).2.1 := by
  intro files
  induction files with
  | nil => intro fs f _ _ hf _; simp at hf
  | cons g rest ih =>
    intro fs f hcw hnd hf hz
    obtain ⟨hg_not, hnd2⟩ := List.nodup_cons.mp hnd
    rw [stripFilesGo]
    by_cases hz0 : 0 < (stripSecureFromContent ((lookupFS fs g).getD [])).2
    · rw [if_pos hz0]
      simp only
      rcases List.mem_cons.mp hf with h1 | h1
      · subst h1
        rw [hz] at hz0
        cases hz0
      · have hfg : f ≠ g := fun he => hg_not (he ▸ h1)
        have hlook : lookupFS (writeFS g (stripSecureFromContent
            ((lookupFS fs g).getD [])).1 fs) f = lookupFS fs f :=
          lookupFS_write_ne _ _ hfg
        have := ih (writeFS g (stripSecureFromContent ((lookupFS fs g).getD [])).1 fs) f
          (fun q hq => hcw q (List.mem_cons_of_mem _ hq)) hnd2 h1 (by rw [hlook]; exact hz)
        refine ⟨by rw [this.1, hlook], ?_⟩
        intro hmem
        rcases List.mem_cons.mp hmem with h2 | h2
        · exact hfg (relPath_inj (hcw f hf) (hcw g (List.mem_cons_self _ _)) h2)
        · exact this.2 h2
    · rw [if_neg hz0]
      rcases List.mem_cons.mp hf with h1 | h1
      · subst h1
        refine ⟨stripFilesGo_untouched cwd rest fs f hg_not, ?_⟩
        intro hmem
        obtain ⟨g2, hg2, hrel⟩ := stripFilesGo_processed_sub cwd rest fs _ hmem
        have : f = g2 := relPath_inj (hcw f hf)
          (hcw g2 (List.mem_cons_of_mem _ hg2)) hrel
        exact hg_not (this ▸ hg2)
      · exact ih fs f (fun q hq => hcw q (List.mem_cons_of_mem _ hq)) hnd2 h1 hz

end MuleBuild

namespace MuleBuild

/-- C9: when no file lies at or under the target path - the target does not
exist - `getXmlFiles` returns the empty set rather than an error; whether
an empty set is an error stays a caller decision. -/
theorem C9_nonexistent_target_empty (fs : FS) (target : Path)
    (h : ∀ p v, lookupFS fs p = some v → begins target p = false) :
    getXmlFilesFS fs target = [] := by
  have hex : existsFS fs target = false := by
    rw [existsFS, List.any_eq_false]
    intro e he
    have h1 : lookupFS fs e.1 ≠ none := lookupFS_ne_none_of_mem he
    cases h2 : lookupFS fs e.1 with
    | none => exact absurd h2 h1
    | some v => simp [h e.1 v h2]
  unfold getXmlFilesFS
  rw [hex]
  simp

/-- C9 witness: a one-file file system and a target disjoint from it. -/
theorem C9_nonexistent_target_empty_witness :
    (∀ p v, lookupFS [((["a"], "x".toList) : Path × Chars)] p = some v →
      begins (["b"] : Path) p = false) ∧
    getXmlFilesFS [((["a"], "x".toList) : Path × Chars)] ["b"] = [] := by
  have h : ∀ p v, lookupFS [((["a"], "x".toList) : Path × Chars)] p = some v →
      begins (["b"] : Path) p = false := by
    intro p v hp
    by_cases he : (["a"] : Path) = p
    · subst he
      decide
    · rw [lookupFS, if_neg he] at hp
      simp [lookupFS] at hp
  exact ⟨h, C9_nonexistent_target_empty _ _ h⟩

theorem stripSecureFromContent_count_zero {content : Chars}
    (h : (stripSecureFromContent content).2 = 0) :
    (stripSecureFromContent content).1 = content := by
  simp only [stripSecureFromContent] at h ⊢
  have h1 : (runRw braceRw content).2 = 0 := by omega
  have h2 : (runRw dwRw (runRw braceRw content).1).2 = 0 := by omega
  rw [runRw_count_zero dwRw h2, runRw_count_zero braceRw h1]

/-- C10: a content string with zero counted replacements is returned
byte-identical by `stripSecureFromContent`; consequently the file-level
strip neither rewrites nor lists as processed any resolved file whose
content yields zero replacements. -/
theorem C10_zero_count_no_rewrite (fs fs2 : FS) (target cwd : Path)
    (processed : List Path) (total : Nat) (f : Path)
    (hcwd : begins cwd target = true)
    (hrun : stripSecureFS fs target cwd = .ok (fs2, processed, total))
    (hf : f ∈ (if isDirFS fs target then getXmlFilesFS fs target else [target]))
    (hz : (stripSecureFromContent ((lookupFS fs f).getD [])).2 = 0) :
    (∀ content : Chars, (stripSecureFromContent content).2 = 0 →
      (stripSecureFromContent content).1 = content) ∧
    lookupFS fs2 f = lookupFS fs f ∧
    relPath cwd f ∉ processed := by
  refine ⟨fun content hc => stripSecureFromContent_count_zero hc, ?_⟩
  unfold stripSecureFS at hrun
  by_cases he : existsFS fs target = true
  · rw [if_pos he] at hrun
    injection hrun with hr
    have hsub : ∀ g ∈ (if isDirFS fs target then getXmlFilesFS fs target else [target]),
        begins cwd g = true := by
      intro g hg
      by_cases hd : isDirFS fs target = true
      · rw [if_pos hd] at hg
        have hb := (mem_getXmlFilesFS.mp hg).2.2.1
        exact (begins_iff _ _).mpr
          (((begins_iff _ _).mp hcwd).trans ((begins_iff _ _).mp hb))
      · rw [if_neg hd] at hg
        rcases List.mem_cons.mp hg with h1 | h1
        · exact h1 ▸ hcwd
        · simp at h1
    have hnd : (if isDirFS fs target then getXmlFilesFS fs target else [target]).Nodup := by
      by_cases hd : isDirFS fs target = true
      · rw [if_pos hd]
        exact getXmlFilesFS_nodup fs target
      · rw [if_neg hd]
        exact List.nodup_singleton _
    have hmain := stripFilesGo_zero cwd
      (if isDirFS fs target then getXmlFilesFS fs target else [target]) fs f hsub hnd hf hz
    rw [hr] at hmain
    exact hmain
  · rw [if_neg he] at hrun
    cases hrun

/-- The two-file project the C10 witness strips: one xml file with no
marker, one with a single brace-form marker. -/
def c10fs : FS :=
  [((["m", "a.xml"] : Path), "hello".toList),
   ((["m", "b.xml"] : Path), "$\x7bsecure::p.password\x7d".toList)]

/-- C10 witness: on the concrete two-file project, the marker-free file is
neither rewritten nor reported. -/
theorem C10_zero_count_no_rewrite_witness :
    (begins ([] : Path) (["m"] : Path) = true) ∧
    (stripSecureFS c10fs ["m"] [] =
      .ok ((((["m", "b.xml"] : Path), "$\x7bp.password\x7d".toList) :: c10fs),
        [["m", "b.xml"]], 1)) ∧
    ((∀ content : Chars, (stripSecureFromContent content).2 = 0 →
      (stripSecureFromContent content).1 = content) ∧
    lookupFS (((["m", "b.xml"] : Path), "$\x7bp.password\x7d".toList) :: c10fs)
      ["m", "a.xml"] = lookupFS c10fs ["m", "a.xml"] ∧
    relPath [] ["m", "a.xml"] ∉ ([[("m" : String), "b.xml"]] : List Path)) :=
  ⟨by decide, by decide,
    C10_zero_count_no_rewrite c10fs _ ["m"] [] _ 1 ["m", "a.xml"]
      (by decide) (by decide) (by decide) (by decide)⟩

theorem replicate_dedup {α : Type} [DecidableEq α] (a : α) :
    ∀ n, 0 < n → (List.replicate n a).dedup = [a] := by
  intro n
  induction n with
  | zero => intro h; omega
  | succ m ih =>
    intro _
    rw [List.replicate_succ]
    by_cases hm : 0 < m
    · rw [List.dedup_cons_of_mem (by rw [List.mem_replicate]; exact ⟨by omega, rfl⟩)]
      exact ih hm
    · have : m = 0 := by omega
      subst this
      simp

/-- C5 evidence: the snapshot locations `packageProject` derives are the
fixed constants `.mule-build-backup` and `pom.xml.bak` under the project
directory - 10000 successive derivations for one project directory produce
exactly one distinct backup location each, not 10000 unique
timestamp-plus-random IDs. -/
theorem C5_backup_location_fixed :
    backupDirPath ["proj"] = ["proj", ".mule-build-backup"] ∧
    pomBakPath ["proj"] = ["proj", "pom.xml.bak"] ∧
    ((List.range 10000).map (fun _ => backupDirPath ["proj"])).dedup =
      [["proj", ".mule-build-backup"]] ∧
    ((List.range 10000).map (fun _ => pomBakPath ["proj"])).dedup =
      [["proj", "pom.xml.bak"]] := by
  refine ⟨rfl, rfl, ?_, ?_⟩ <;>
  · rw [List.map_const', List.length_range]
    exact replicate_dedup _ 10000 (by omega)

end MuleBuild

namespace MuleBuild

theorem flatMap_congr_mem {α β : Type} {l : List α} {f g : α → List β}
    (h : ∀ a ∈ l, f a = g a) : l.flatMap f = l.flatMap g := by
  induction l with
  | nil => rfl
  | cons x xs ih =>
    rw [List.flatMap_cons, List.flatMap_cons, h x (List.mem_cons_self _ _),
      ih (fun a ha => h a (List.mem_cons_of_mem _ ha))]

theorem isDirFS_write (p : Path) (v : Chars) (fs : FS) (d : Path)
    (h : begins d p = false) :
    isDirFS (writeFS p v fs) d = isDirFS fs d := by
  simp [isDirFS, writeFS, h]

theorem enforceSecureFS_write_out {fs : FS} {p : Path} (v : Chars)
    {target cwd : Path} (pats : List Chars) (h : begins target p = false) :
    enforceSecureFS (writeFS p v fs) target cwd pats =
      enforceSecureFS fs target cwd pats := by
  unfold enforceSecureFS
  rw [existsFS_write, h, Bool.false_or]
  by_cases he : existsFS fs target = true
  · rw [if_pos he, if_pos he, isDirFS_write p v fs target h,
      getXmlFilesFS_write_out v h]
    have harg : ∀ f ∈ (if isDirFS fs target then getXmlFilesFS fs target else [target]),
        lookupFS (writeFS p v fs) f = lookupFS fs f := by
      intro f hf
      apply lookupFS_write_ne
      intro he2
      subst he2
      by_cases hd : isDirFS fs target = true
      · rw [if_pos hd] at hf
        rw [(mem_getXmlFilesFS.mp hf).2.2.1] at h
        cases h
      · rw [if_neg hd] at hf
        rcases List.mem_cons.mp hf with h1 | h1
        · rw [h1, begins_refl_append] at h
          cases h
        · simp at h1
    exact congrArg Except.ok (flatMap_congr_mem (fun f hf =>
      congrArg (fun c => (findUnsecuredProperties c pats).map
          (fun w => (relPath cwd f, w)))
        (congrArg (fun ol => ol.getD []) (harg f hf))))
  · rw [if_neg he, if_neg he]

theorem begins_muleDir_pom (cwd : Path) :
    begins (muleDirPath cwd) (pomPath cwd) = false :=
  begins_disjoint_heads (show ("src" : String) ≠ "pom.xml" from by decide)
    (begins_refl_append (cwd ++ ["pom.xml"]))

theorem begins_muleDir_bak (cwd : Path) :
    begins (muleDirPath cwd) (pomBakPath cwd) = false :=
  begins_disjoint_heads (show ("src" : String) ≠ "pom.xml.bak" from by decide)
    (begins_refl_append (cwd ++ ["pom.xml.bak"]))

theorem begins_backupDir_of_muleDir {cwd q : Path}
    (h : begins (muleDirPath cwd) q = true) :
    begins (backupDirPath cwd) q = false :=
  begins_disjoint_heads (show (".mule-build-backup" : String) ≠ "src" from by decide) h

theorem begins_muleDir_of_backupDir {cwd q : Path}
    (h : begins (backupDirPath cwd) q = true) :
    begins (muleDirPath cwd) q = false :=
  begins_disjoint_heads (show ("src" : String) ≠ ".mule-build-backup" from by decide) h

theorem pkgCleanup_false_evs (cwd : Path) (fs : FS) :
    ∀ e ∈ (pkgCleanup cwd false fs).2,
      e = Ev.write (pomPath cwd) ∨ e = Ev.unlink (pomBakPath cwd) := by
  intro e he
  unfold pkgCleanup at he
  cases hbak : lookupFS fs (pomBakPath cwd) with
  | none =>
    rw [hbak] at he
    simp only at he
    by_cases hex : existsFS fs (pomBakPath cwd) = true
    · rw [if_pos hex] at he
      simp at he
      exact Or.inr he
    · rw [if_neg hex] at he
      simp at he
  | some c =>
    rw [hbak] at he
    simp only at he
    by_cases hex : existsFS (writeFS (pomPath cwd) c fs) (pomBakPath cwd) = true
    · rw [if_pos hex] at he
      rcases List.mem_append.mp he with h1 | h1
      · simp at h1
        exact Or.inl h1
      · simp at h1
        exact Or.inr h1
    · rw [if_neg hex] at he
      simp at he
      exact Or.inl he

theorem pkgTryBody_enforce_fail (o : Oracle) (opts : PkgOptions) (cwd : Path)
    (pn ver : String) (fs : FS)
    (hstrip : opts.stripSecure = false)
    (henv : opts.environment = some "production")
    (hfail : ∃ vs, enforceSecureFS fs (muleDirPath cwd) cwd
      DEFAULT_SENSITIVE_PATTERNS = .ok vs ∧ vs ≠ []) :
    pkgTryBody o opts cwd pn ver fs =
      (.error "Security validation failed. Use secure:: prefix for sensitive properties.",
        fs, [Ev.clean]) := by
  obtain ⟨vs, hvs, hne⟩ := hfail
  have hemp : vs.isEmpty = false := by
    cases vs with
    | nil => exact absurd rfl hne
    | cons a l => rfl
  have hef : enforceFailFS opts cwd fs = true := by
    unfold enforceFailFS
    rw [henv, hvs]
    simp [hemp]
  unfold pkgTryBody
  rw [hstrip]
  simp only [Bool.false_eq_true, if_false, hef, if_true]
  simp

/-- C2: an enforce-mode run of `packageProject` - environment production,
no stripping - over a config tree holding at least one unsecured sensitive
reference returns an error before the external build invoker is reached:
no build event is emitted, and no write event touches any config-tree
file. -/
theorem C2_enforce_gate_aborts (o : Oracle) (opts : PkgOptions) (cwd : Path) (fs0 : FS)
    (henv : opts.environment = some "production")
    (hstrip : opts.stripSecure = false)
    (hv : ∃ vs, enforceSecureFS fs0 (muleDirPath cwd) cwd
      DEFAULT_SENSITIVE_PATTERNS = .ok vs ∧ vs ≠ []) :
    (∃ e, (packageProject o opts cwd fs0).1 = .error e) ∧
    Ev.build ∉ (packageProject o opts cwd fs0).2.2 ∧
    (∀ p, Ev.write p ∈ (packageProject o opts cwd fs0).2.2 →
      begins (muleDirPath cwd) p = false) := by
  by_cases hcb : o.canBuild = true
  · by_cases hcf : o.configOk = true
    · cases hpom : lookupFS fs0 (pomPath cwd) with
      | some pc =>
        have hv2 : ∃ vs, enforceSecureFS (writeFS (pomBakPath cwd) pc fs0)
            (muleDirPath cwd) cwd DEFAULT_SENSITIVE_PATTERNS = .ok vs ∧ vs ≠ [] := by
          obtain ⟨vs, hvs, hne⟩ := hv
          exact ⟨vs, by
            rw [enforceSecureFS_write_out pc DEFAULT_SENSITIVE_PATTERNS
              (begins_muleDir_bak cwd)]
            exact hvs, hne⟩
        have hbody := pkgTryBody_enforce_fail o opts cwd
          (⟨getProjectNameC pc⟩ : String)
          (match opts.version with
            | some v => v
            | none =>
              match getVersionC pc with
              | some v => (⟨v⟩ : String)
              | none => "1.0.0")
          (writeFS (pomBakPath cwd) pc fs0) hstrip henv hv2
        have hrun : packageProject o opts cwd fs0 =
            (.error "Security validation failed. Use secure:: prefix for sensitive properties.",
              (pkgCleanup cwd false (writeFS (pomBakPath cwd) pc fs0)).1,
              [Ev.write (pomBakPath cwd)] ++ [] ++ [Ev.clean] ++
                (pkgCleanup cwd false (writeFS (pomBakPath cwd) pc fs0)).2) := by
          unfold packageProject
          rw [hcb, hcf]
          simp only [Bool.not_true, Bool.false_eq_true, if_false, hpom, hstrip]
          simp only [Bool.false_eq_true, if_false, hbody]
        rw [hrun]
        refine ⟨⟨_, rfl⟩, ?_, ?_⟩
        · intro hmem
          simp only [List.append_nil, List.nil_append, List.mem_append,
            List.mem_cons, List.not_mem_nil] at hmem
          rcases hmem with (h1 | h1) | h1
          · simp at h1
          · simp at h1
          · rcases pkgCleanup_false_evs cwd _ _ h1 with h2 | h2 <;> simp at h2
        · intro p hmem
          simp only [List.append_nil, List.nil_append, List.mem_append,
            List.mem_cons, List.not_mem_nil] at hmem
          rcases hmem with (h1 | h1) | h1
          · rcases h1 with h1 | h1
            · injection h1 with h2
              rw [h2]
              exact begins_muleDir_bak cwd
            · simp at h1
          · simp at h1
          · rcases pkgCleanup_false_evs cwd _ _ h1 with h2 | h2
            · injection h2 with h3
              rw [h3]
              exact begins_muleDir_pom cwd
            · cases h2
      | none =>
        have hbody := pkgTryBody_enforce_fail o opts cwd "mule-app"
          (match opts.version with
            | some v => v
            | none => "1.0.0")
          fs0 hstrip henv hv
        have hrun : packageProject o opts cwd fs0 =
            (.error "Security validation failed. Use secure:: prefix for sensitive properties.",
              (pkgCleanup cwd false fs0).1,
              [] ++ [] ++ [Ev.clean] ++ (pkgCleanup cwd false fs0).2) := by
          unfold packageProject
          rw [hcb, hcf]
          simp only [Bool.not_true, Bool.false_eq_true, if_false, hpom, hstrip]
          simp only [Bool.false_eq_true, if_false, hbody]
        rw [hrun]
        refine ⟨⟨_, rfl⟩, ?_, ?_⟩
        · intro hmem
          simp only [List.nil_append, List.mem_append, List.mem_cons,
            List.not_mem_nil] at hmem
          rcases hmem with h1 | h1
          · simp at h1
          · rcases pkgCleanup_false_evs cwd _ _ h1 with h2 | h2 <;> simp at h2
        · intro p hmem
          simp only [List.nil_append, List.mem_append, List.mem_cons,
            List.not_mem_nil] at hmem
          rcases hmem with h1 | h1
          · simp at h1
          · rcases pkgCleanup_false_evs cwd _ _ h1 with h2 | h2
            · injection h2 with h3
              rw [h3]
              exact begins_muleDir_pom cwd
            · cases h2
    · have hcf2 : o.configOk = false := by
        cases h : o.configOk
        · rfl
        · exact absurd h hcf
      have hrun : packageProject o opts cwd fs0 =
          (.error "Failed to load configuration", fs0, []) := by
        unfold packageProject
        rw [hcb, hcf2]
        simp
      rw [hrun]
      exact ⟨⟨_, rfl⟩, by simp, by simp⟩
  · have hcb2 : o.canBuild = false := by
      cases h : o.canBuild
      · rfl
      · exact absurd h hcb
    have hrun : packageProject o opts cwd fs0 =
        (.error "Build requirements not met", fs0, []) := by
      unfold packageProject
      rw [hcb2]
      simp
    rw [hrun]
    exact ⟨⟨_, rfl⟩, by simp, by simp⟩

end MuleBuild

namespace MuleBuild

theorem existsFS_of_isDir {fs : FS} {d : Path} (h : isDirFS fs d = true) :
    existsFS fs d = true := by
  rw [isDirFS, List.any_eq_true] at h
  obtain ⟨e, he, hp⟩ := h
  rw [existsFS, List.any_eq_true]
  refine ⟨e, he, ?_⟩
  rw [Bool.and_eq_true] at hp
  exact hp.1

theorem isDirFS_of_lookup {fs : FS} {d q : Path} {v : Chars}
    (hl : lookupFS fs q = some v) (hb : begins d q = true) (hne : q ≠ d) :
    isDirFS fs d = true := by
  rw [isDirFS, List.any_eq_true]
  exact ⟨(q, v), lookupFS_mem hl, by simp [hb, hne]⟩

theorem getXmlFilesFS_copy_out :
    ∀ (ps : List (Path × Path)) (fs : FS) (d : Path),
      (∀ pr ∈ ps, begins d pr.2 = false) →
      getXmlFilesFS (copyFilesFS fs ps) d = getXmlFilesFS fs d := by
  intro ps
  induction ps with
  | nil => intro fs d _; rfl
  | cons pr rest ih =>
    intro fs d h
    obtain ⟨s, dd⟩ := pr
    rw [copyFilesFS, ih _ _ (fun q hq => h q (List.mem_cons_of_mem _ hq)),
      getXmlFilesFS_write_out _ (h (s, dd) (List.mem_cons_self _ _))]

theorem existsFS_copy_out :
    ∀ (ps : List (Path × Path)) (fs : FS) (d : Path),
      (∀ pr ∈ ps, begins d pr.2 = false) →
      existsFS (copyFilesFS fs ps) d = existsFS fs d := by
  intro ps
  induction ps with
  | nil => intro fs d _; rfl
  | cons pr rest ih =>
    intro fs d h
    obtain ⟨s, dd⟩ := pr
    rw [copyFilesFS, ih _ _ (fun q hq => h q (List.mem_cons_of_mem _ hq)),
      existsFS_write, h (s, dd) (List.mem_cons_self _ _), Bool.false_or]

theorem isDirFS_copy_out :
    ∀ (ps : List (Path × Path)) (fs : FS) (d : Path),
      (∀ pr ∈ ps, begins d pr.2 = false) →
      isDirFS (copyFilesFS fs ps) d = isDirFS fs d := by
  intro ps
  induction ps with
  | nil => intro fs d _; rfl
  | cons pr rest ih =>
    intro fs d h
    obtain ⟨s, dd⟩ := pr
    rw [copyFilesFS, ih _ _ (fun q hq => h q (List.mem_cons_of_mem _ hq)),
      isDirFS_write _ _ _ _ (h (s, dd) (List.mem_cons_self _ _))]

theorem path_single_ne {cwd : Path} {a b : String} (h : a ≠ b) :
    cwd ++ [a] ≠ cwd ++ [b] := by
  intro he
  have := List.append_cancel_left he
  injection this with h1
  exact h h1

theorem relPath_ne_nil {d f : Path} (hb : begins d f = true) (hne : f ≠ d) :
    relPath d f ≠ [] := by
  intro he
  apply hne
  have := begins_eq hb
  rw [this]
  unfold relPath at he
  rw [he]
  simp

theorem isXmlPath_append {base rel : Path} (h : rel ≠ []) :
    isXmlPath (base ++ rel) = isXmlPath rel := by
  unfold isXmlPath
  rw [List.getLast?_append]
  have : rel.getLast?.isSome := List.getLast?_isSome.mpr h
  cases hx : rel.getLast? with
  | none => rw [hx] at this; cases this
  | some a => simp

theorem begins_append_right (d t : Path) : begins d (d ++ t) = true :=
  begins_append_self d t

theorem relPath_append (d t : Path) : relPath d (d ++ t) = t := by
  unfold relPath
  exact List.drop_left d t

theorem globalXml_mem_xmlFiles {fs : FS} {cwd : Path} {c : Chars}
    (hl : lookupFS fs (globalXmlPath cwd) = some c)
    (hex : existsFS fs (muleDirPath cwd) = true) :
    globalXmlPath cwd ∈ getXmlFilesFS fs (muleDirPath cwd) := by
  apply mem_getXmlFilesFS.mpr
  refine ⟨hex, mem_keysFS_of_lookup hl, ?_, ?_, ?_⟩
  · exact begins_append_right _ _
  · intro he
    have := congrArg List.length he
    simp [globalXmlPath] at this
  · rw [show globalXmlPath cwd = muleDirPath cwd ++ ["global.xml"] from rfl]
    rw [isXmlPath_append (by simp)]
    decide

end MuleBuild

namespace MuleBuild

theorem lookupFS_ne_none_of_mem_keys {fs : FS} {p : Path}
    (h : p ∈ keysFS fs) : lookupFS fs p ≠ none := by
  unfold keysFS at h
  rw [List.mem_dedup, List.mem_map] at h
  obtain ⟨e, he, hf⟩ := h
  have hm : (p, e.2) ∈ fs := by
    rw [← hf, Prod.mk.eta]
    exact he
  exact lookupFS_ne_none_of_mem hm

theorem begins_backupDir_bak (cwd : Path) :
    begins (backupDirPath cwd) (pomBakPath cwd) = false :=
  begins_disjoint_heads
    (show (".mule-build-backup" : String) ≠ "pom.xml.bak" from by decide)
    (begins_refl_append (cwd ++ ["pom.xml.bak"]))

theorem begins_backupDir_pom (cwd : Path) :
    begins (backupDirPath cwd) (pomPath cwd) = false :=
  begins_disjoint_heads
    (show (".mule-build-backup" : String) ≠ "pom.xml" from by decide)
    (begins_refl_append (cwd ++ ["pom.xml"]))

theorem append_rel_ne_base {d f base : Path} (hb : begins d f = true)
    (hne : f ≠ d) : base ++ relPath d f ≠ base := by
  intro he
  have hlen := congrArg List.length he
  rw [List.length_append] at hlen
  have hz : (relPath d f).length = 0 := by omega
  exact relPath_ne_nil hb hne (List.length_eq_zero.mp hz)

theorem isXmlPath_base_rel {d f : Path} (hb : begins d f = true) (hne : f ≠ d)
    (hx : isXmlPath f = true) (base : Path) :
    isXmlPath (base ++ relPath d f) = true := by
  have hrne : List.drop d.length f ≠ [] := relPath_ne_nil hb hne
  show isXmlPath (base ++ List.drop d.length f) = true
  rw [isXmlPath_append hrne]
  have hfx := hx
  rw [begins_eq hb] at hfx
  rw [isXmlPath_append hrne] at hfx
  exact hfx

theorem stripStepFS_out {cwd : Path} {fs : FS}
    (hdir : isDirFS fs (muleDirPath cwd) = true) :
    ∀ q, q ∉ getXmlFilesFS fs (muleDirPath cwd) →
      lookupFS (stripStepFS cwd fs).1 q = lookupFS fs q := by
  intro q hq
  have hex : existsFS fs (muleDirPath cwd) = true := existsFS_of_isDir hdir
  have hrun : stripSecureFS fs (muleDirPath cwd) cwd =
      .ok (stripFilesGo cwd fs (getXmlFilesFS fs (muleDirPath cwd))) := by
    unfold stripSecureFS
    rw [if_pos hex]
    simp only [hdir, if_true]
  have huq : lookupFS (stripFilesGo cwd fs
        (getXmlFilesFS fs (muleDirPath cwd))).1 q = lookupFS fs q :=
    stripFilesGo_untouched cwd _ fs q hq
  have hug : lookupFS (stripFilesGo cwd fs
        (getXmlFilesFS fs (muleDirPath cwd))).1 (globalXmlPath cwd) =
        lookupFS fs (globalXmlPath cwd) ∨
      globalXmlPath cwd ∈ getXmlFilesFS fs (muleDirPath cwd) := by
    by_cases hin : globalXmlPath cwd ∈ getXmlFilesFS fs (muleDirPath cwd)
    · exact Or.inr hin
    · exact Or.inl (stripFilesGo_untouched cwd _ fs _ hin)
  unfold stripStepFS
  rw [hrun]
  rcases hgen : stripFilesGo cwd fs (getXmlFilesFS fs (muleDirPath cwd))
    with ⟨fs1, wr, n⟩
  rw [hgen] at huq hug
  simp only at huq hug
  simp only
  cases hg : lookupFS fs1 (globalXmlPath cwd) with
  | none => exact huq
  | some c =>
    simp only
    by_cases hchg : removeSecurePropertiesConfig c = c
    · rw [if_neg (by simp [hchg])]
      exact huq
    · rw [if_pos (by simp [hchg])]
      simp only
      have hgmem : globalXmlPath cwd ∈ getXmlFilesFS fs (muleDirPath cwd) := by
        rcases hug with h1 | h1
        · rw [h1] at hg
          exact globalXml_mem_xmlFiles hg hex
        · exact h1
      have hqne : q ≠ globalXmlPath cwd := fun he => hq (he ▸ hgmem)
      rw [lookupFS_write_ne _ _ hqne]
      exact huq

theorem setNameFS_out (cwd : Path) (en : String) (fs : FS) :
    ∀ q, q ≠ pomPath cwd → lookupFS (setNameFS cwd en fs).1 q = lookupFS fs q := by
  intro q hq
  unfold setNameFS
  cases h : lookupFS fs (pomPath cwd) with
  | none => rfl
  | some pc =>
    simp only
    exact lookupFS_write_ne _ _ hq

theorem pkgTryBody_fail_out (o : Oracle) (opts : PkgOptions) (cwd : Path)
    (pn ver : String) (fs : FS)
    (hdir : isDirFS fs (muleDirPath cwd) = true)
    (hfail : ∃ e, (pkgTryBody o opts cwd pn ver fs).1 = Except.error e) :
    ∀ q, q ∉ getXmlFilesFS fs (muleDirPath cwd) → q ≠ pomPath cwd →
      lookupFS (pkgTryBody o opts cwd pn ver fs).2.1 q = lookupFS fs q := by
  have hstep : ∀ q, q ∉ getXmlFilesFS fs (muleDirPath cwd) →
      lookupFS (if opts.stripSecure then stripStepFS cwd fs else (fs, [])).1 q =
        lookupFS fs q := by
    intro q hq
    cases hs : opts.stripSecure with
    | false => simp only [Bool.false_eq_true, if_false]
    | true =>
      simp only [if_true]
      exact stripStepFS_out hdir q hq
  intro q hq hqp
  unfold pkgTryBody at hfail ⊢
  dsimp only at hfail ⊢
  by_cases hef : enforceFailFS opts cwd
      (if opts.stripSecure then stripStepFS cwd fs else (fs, [])).1 = true
  · rw [if_pos hef]
    exact hstep q hq
  · rw [if_neg hef] at hfail ⊢
    cases hbo : o.buildOk with
    | false =>
      simp only [Bool.not_false, if_true]
      rw [setNameFS_out _ _ _ q hqp]
      exact hstep q hq
    | true =>
      rw [hbo] at hfail
      simp only [Bool.not_true, Bool.false_eq_true, if_false] at hfail ⊢
      cases hj : o.builtJar with
      | none =>
        simp only
        rw [setNameFS_out _ _ _ q hqp]
        exact hstep q hq
      | some jar =>
        rw [hj] at hfail
        simp at hfail

end MuleBuild

namespace MuleBuild

theorem restore_phase (cwd : Path) (fs5 fs0 : FS) (X : List Path)
    (hXb : ∀ f ∈ X, begins (muleDirPath cwd) f = true)
    (hXd : ∀ f ∈ X, f ≠ muleDirPath cwd)
    (hXx : ∀ f ∈ X, isXmlPath f = true)
    (hXs : ∀ f ∈ X, lookupFS fs0 f ≠ none)
    (hXne : X ≠ [])
    (h5bk : ∀ f ∈ X,
      lookupFS fs5 (backupDirPath cwd ++ relPath (muleDirPath cwd) f) =
        some ((lookupFS fs0 f).getD []))
    (h5bd : ∀ q, begins (backupDirPath cwd) q = true →
      q ∉ X.map (fun f => backupDirPath cwd ++ relPath (muleDirPath cwd) f) →
      lookupFS fs5 q = none) :
    (∀ f ∈ X,
      lookupFS (restoreXmlFilesFS fs5 (muleDirPath cwd) (backupDirPath cwd)).1 f =
        lookupFS fs0 f) ∧
    (∀ q, q ∉ X → begins (backupDirPath cwd) q = false →
      lookupFS (restoreXmlFilesFS fs5 (muleDirPath cwd) (backupDirPath cwd)).1 q =
        lookupFS fs5 q) ∧
    (∀ q, begins (backupDirPath cwd) q = true →
      lookupFS (restoreXmlFilesFS fs5 (muleDirPath cwd) (backupDirPath cwd)).1 q =
        none) := by
  obtain ⟨f0, hf0⟩ := List.exists_mem_of_ne_nil X hXne
  have hex5 : existsFS fs5 (backupDirPath cwd) = true :=
    existsFS_of_lookup (h5bk f0 hf0) (begins_append_right _ _)
  have hre : (restoreXmlFilesFS fs5 (muleDirPath cwd) (backupDirPath cwd)).1 =
      removeUnder (backupDirPath cwd)
        (copyFilesFS fs5 ((getXmlFilesFS fs5 (backupDirPath cwd)).map
          (fun b => (b, muleDirPath cwd ++ relPath (backupDirPath cwd) b)))) := by
    unfold restoreXmlFilesFS
    rw [if_pos hex5]
  have hBsub : ∀ b ∈ getXmlFilesFS fs5 (backupDirPath cwd),
      b ∈ X.map (fun f => backupDirPath cwd ++ relPath (muleDirPath cwd) f) := by
    intro b hb
    obtain ⟨_, hbk2, hbb, _, _⟩ := mem_getXmlFilesFS.mp hb
    by_contra hni
    exact lookupFS_ne_none_of_mem_keys hbk2 (h5bd b hbb hni)
  have himg : ∀ f ∈ X, backupDirPath cwd ++ relPath (muleDirPath cwd) f ∈
      getXmlFilesFS fs5 (backupDirPath cwd) := by
    intro f hf
    apply mem_getXmlFilesFS.mpr
    exact ⟨hex5, mem_keysFS_of_lookup (h5bk f hf), begins_append_right _ _,
      append_rel_ne_base (hXb f hf) (hXd f hf),
      isXmlPath_base_rel (hXb f hf) (hXd f hf) (hXx f hf) _⟩
  have hBb : ∀ b ∈ getXmlFilesFS fs5 (backupDirPath cwd),
      begins (backupDirPath cwd) b = true := by
    intro b hb
    exact (mem_getXmlFilesFS.mp hb).2.2.1
  have hsndeq : ((getXmlFilesFS fs5 (backupDirPath cwd)).map
        (fun b => (b, muleDirPath cwd ++ relPath (backupDirPath cwd) b))).map
          Prod.snd =
      (getXmlFilesFS fs5 (backupDirPath cwd)).map
        (fun b => muleDirPath cwd ++ relPath (backupDirPath cwd) b) := by
    rw [List.map_map]
    rfl
  have hnodup : (((getXmlFilesFS fs5 (backupDirPath cwd)).map
      (fun b => (b, muleDirPath cwd ++ relPath (backupDirPath cwd) b))).map
        Prod.snd).Nodup := by
    rw [hsndeq]
    apply List.Nodup.map_on ?_ (getXmlFilesFS_nodup fs5 (backupDirPath cwd))
    intro x hx y hy hxy
    exact relPath_inj (hBb x hx) (hBb y hy) (List.append_cancel_left hxy)
  have hsrc : ∀ pr ∈ (getXmlFilesFS fs5 (backupDirPath cwd)).map
      (fun b => (b, muleDirPath cwd ++ relPath (backupDirPath cwd) b)),
      pr.1 ∉ ((getXmlFilesFS fs5 (backupDirPath cwd)).map
        (fun b => (b, muleDirPath cwd ++ relPath (backupDirPath cwd) b))).map
          Prod.snd := by
    intro pr hpr
    obtain ⟨b, hb, rfl⟩ := List.mem_map.mp hpr
    rw [hsndeq]
    show b ∉ _
    intro hmem
    obtain ⟨b2, _, hbe⟩ := List.mem_map.mp hmem
    have hmd : begins (muleDirPath cwd) b = true := by
      rw [← hbe]
      exact begins_append_right _ _
    have := begins_backupDir_of_muleDir hmd
    rw [hBb b hb] at this
    simp at this
  have hdeq : ∀ f ∈ X,
      muleDirPath cwd ++ relPath (backupDirPath cwd)
        (backupDirPath cwd ++ relPath (muleDirPath cwd) f) = f := by
    intro f hf
    rw [relPath_append]
    exact (begins_eq (hXb f hf)).symm
  refine ⟨?_, ?_, ?_⟩
  · intro f hf
    rw [hre]
    have hbdf : begins (backupDirPath cwd) f = false :=
      begins_backupDir_of_muleDir (hXb f hf)
    rw [lookupFS_removeUnder_out _ hbdf]
    have hpair := List.mem_map_of_mem
      (fun b => (b, muleDirPath cwd ++ relPath (backupDirPath cwd) b)) (himg f hf)
    have hdst := lookupFS_copyFiles_dest _ fs5 hnodup hsrc _ hpair
    simp only at hdst
    rw [hdeq f hf, h5bk f hf] at hdst
    obtain ⟨w, hw⟩ := Option.ne_none_iff_exists'.mp (hXs f hf)
    rw [hdst, hw]
    simp
  · intro q hq hbdq
    rw [hre, lookupFS_removeUnder_out _ hbdq]
    apply lookupFS_copyFiles_out
    intro hmem
    rw [hsndeq] at hmem
    obtain ⟨b, hb, hbe⟩ := List.mem_map.mp hmem
    obtain ⟨f, hf, rfl⟩ := List.mem_map.mp (hBsub b hb)
    rw [hdeq f hf] at hbe
    exact hq (hbe ▸ hf)
  · intro q hbdq
    rw [hre]
    exact lookupFS_removeUnder_in _ hbdq

end MuleBuild

namespace MuleBuild

theorem cleanup_restores (cwd : Path) (s3 fs0 : FS) (pc : Chars) (X : List Path)
    (hXb : ∀ f ∈ X, begins (muleDirPath cwd) f = true)
    (hXd : ∀ f ∈ X, f ≠ muleDirPath cwd)
    (hXx : ∀ f ∈ X, isXmlPath f = true)
    (hXs : ∀ f ∈ X, lookupFS fs0 f ≠ none)
    (hXne : X ≠ [])
    (hs3bak : lookupFS s3 (pomBakPath cwd) = some pc)
    (hs3bk : ∀ f ∈ X,
      lookupFS s3 (backupDirPath cwd ++ relPath (muleDirPath cwd) f) =
        some ((lookupFS fs0 f).getD []))
    (hs3bd : ∀ q, begins (backupDirPath cwd) q = true →
      q ∉ X.map (fun f => backupDirPath cwd ++ relPath (muleDirPath cwd) f) →
      lookupFS s3 q = none)
    (hs3md : ∀ q, begins (muleDirPath cwd) q = true → q ∉ X →
      lookupFS s3 q = lookupFS fs0 q) :
    lookupFS (pkgCleanup cwd true s3).1 (pomPath cwd) = some pc ∧
    lookupFS (pkgCleanup cwd true s3).1 (pomBakPath cwd) = none ∧
    (∀ q, begins (muleDirPath cwd) q = true →
      lookupFS (pkgCleanup cwd true s3).1 q = lookupFS fs0 q) ∧
    (∀ q, begins (backupDirPath cwd) q = true →
      lookupFS (pkgCleanup cwd true s3).1 q = none) := by
  have hnotX : ∀ q, begins (muleDirPath cwd) q = false → q ∉ X := by
    intro q h hq
    rw [hXb q hq] at h
    simp at h
  have hbakpom : pomBakPath cwd ≠ pomPath cwd := path_single_ne (by decide)
  have h4bak : lookupFS (writeFS (pomPath cwd) pc s3) (pomBakPath cwd) = some pc := by
    rw [lookupFS_write_ne _ _ hbakpom]
    exact hs3bak
  have hex4 : existsFS (writeFS (pomPath cwd) pc s3) (pomBakPath cwd) = true :=
    existsFS_of_lookup h4bak (begins_refl_append _)
  have h5 : ∀ q, q ≠ pomBakPath cwd → q ≠ pomPath cwd →
      lookupFS (removeFile (pomBakPath cwd) (writeFS (pomPath cwd) pc s3)) q =
        lookupFS s3 q := by
    intro q h1 h2
    rw [lookupFS_removeFile_ne _ h1, lookupFS_write_ne _ _ h2]
  have hbd_ne_bak : ∀ q, begins (backupDirPath cwd) q = true →
      q ≠ pomBakPath cwd := by
    intro q hq he
    rw [he, begins_backupDir_bak] at hq
    simp at hq
  have hbd_ne_pom : ∀ q, begins (backupDirPath cwd) q = true →
      q ≠ pomPath cwd := by
    intro q hq he
    rw [he, begins_backupDir_pom] at hq
    simp at hq
  have hmd_ne_bak : ∀ q, begins (muleDirPath cwd) q = true →
      q ≠ pomBakPath cwd := by
    intro q hq he
    rw [he, begins_muleDir_bak] at hq
    simp at hq
  have hmd_ne_pom : ∀ q, begins (muleDirPath cwd) q = true →
      q ≠ pomPath cwd := by
    intro q hq he
    rw [he, begins_muleDir_pom] at hq
    simp at hq
  have h5bk : ∀ f ∈ X,
      lookupFS (removeFile (pomBakPath cwd) (writeFS (pomPath cwd) pc s3))
        (backupDirPath cwd ++ relPath (muleDirPath cwd) f) =
        some ((lookupFS fs0 f).getD []) := by
    intro f hf
    rw [h5 _ (hbd_ne_bak _ (begins_append_right _ _))
      (hbd_ne_pom _ (begins_append_right _ _))]
    exact hs3bk f hf
  have h5bd : ∀ q, begins (backupDirPath cwd) q = true →
      q ∉ X.map (fun f => backupDirPath cwd ++ relPath (muleDirPath cwd) f) →
      lookupFS (removeFile (pomBakPath cwd) (writeFS (pomPath cwd) pc s3)) q =
        none := by
    intro q hq hni
    rw [h5 _ (hbd_ne_bak _ hq) (hbd_ne_pom _ hq)]
    exact hs3bd q hq hni
  obtain ⟨hr1, hr2, hr3⟩ := restore_phase cwd
    (removeFile (pomBakPath cwd) (writeFS (pomPath cwd) pc s3)) fs0 X
    hXb hXd hXx hXs hXne h5bk h5bd
  have hcl : (pkgCleanup cwd true s3).1 =
      (restoreXmlFilesFS (removeFile (pomBakPath cwd) (writeFS (pomPath cwd) pc s3))
        (muleDirPath cwd) (backupDirPath cwd)).1 := by
    unfold pkgCleanup
    rw [hs3bak]
    simp only
    rw [if_pos hex4]
    simp
  refine ⟨?_, ?_, ?_, ?_⟩
  · rw [hcl, hr2 (pomPath cwd) (hnotX _ (begins_muleDir_pom cwd))
      (begins_backupDir_pom cwd)]
    rw [lookupFS_removeFile_ne _ (fun he => hbakpom he.symm), lookupFS_write_self]
  · rw [hcl, hr2 (pomBakPath cwd) (hnotX _ (begins_muleDir_bak cwd))
      (begins_backupDir_bak cwd)]
    exact lookupFS_removeFile_self _ _
  · intro q hq
    rw [hcl]
    by_cases hin : q ∈ X
    · exact hr1 q hin
    · rw [hr2 q hin (begins_backupDir_of_muleDir hq),
        h5 q (hmd_ne_bak q hq) (hmd_ne_pom q hq)]
      exact hs3md q hq hin
  · intro q hq
    rw [hcl]
    exact hr3 q hq

end MuleBuild

namespace MuleBuild

theorem ne_of_under_not_under {d q p : Path} (hq : begins d q = true)
    (hp : begins d p = false) : q ≠ p := by
  intro he
  rw [he, hp] at hq
  exact Bool.noConfusion hq

theorem packageProject_reduce (o : Oracle) (opts : PkgOptions) (cwd : Path)
    (fs0 : FS) (pc : Chars)
    (hcb : o.canBuild = true) (hcf : o.configOk = true)
    (hstrip : opts.stripSecure = true)
    (hpom : lookupFS fs0 (pomPath cwd) = some pc)
    (hxml : getXmlFilesFS fs0 (muleDirPath cwd) ≠ []) :
    ∃ pn ver : String,
      (packageProject o opts cwd fs0).1 =
        (pkgTryBody o opts cwd pn ver
          (copyFilesFS (writeFS (pomBakPath cwd) pc fs0)
            ((getXmlFilesFS fs0 (muleDirPath cwd)).map
              (fun f => (f, backupDirPath cwd ++ relPath (muleDirPath cwd) f))))).1 ∧
      (packageProject o opts cwd fs0).2.1 =
        (pkgCleanup cwd true
          (pkgTryBody o opts cwd pn ver
            (copyFilesFS (writeFS (pomBakPath cwd) pc fs0)
              ((getXmlFilesFS fs0 (muleDirPath cwd)).map
                (fun f => (f, backupDirPath cwd ++
                  relPath (muleDirPath cwd) f))))).2.1).1 := by
  have hex0 : existsFS fs0 (muleDirPath cwd) = true := by
    by_contra h
    apply hxml
    unfold getXmlFilesFS
    rw [if_neg h]
  have hX1 : getXmlFilesFS (writeFS (pomBakPath cwd) pc fs0) (muleDirPath cwd) =
      getXmlFilesFS fs0 (muleDirPath cwd) :=
    getXmlFilesFS_write_out pc (begins_muleDir_bak cwd)
  have hex1 : existsFS (writeFS (pomBakPath cwd) pc fs0) (muleDirPath cwd) = true := by
    rw [existsFS_write, hex0, Bool.or_true]
  have hbk : backupXmlFilesFS (writeFS (pomBakPath cwd) pc fs0)
        (muleDirPath cwd) (backupDirPath cwd) =
      (copyFilesFS (writeFS (pomBakPath cwd) pc fs0)
        ((getXmlFilesFS fs0 (muleDirPath cwd)).map
          (fun f => (f, backupDirPath cwd ++ relPath (muleDirPath cwd) f))),
        getXmlFilesFS fs0 (muleDirPath cwd)) := by
    unfold backupXmlFilesFS
    rw [if_pos hex1]
    simp only
    rw [hX1]
  have hemp : (getXmlFilesFS fs0 (muleDirPath cwd)).isEmpty = false := by
    cases hXc : getXmlFilesFS fs0 (muleDirPath cwd) with
    | nil => exact absurd hXc hxml
    | cons a l => rfl
  unfold packageProject
  rw [hcb, hcf, hpom, hstrip]
  simp only [Bool.not_true, Bool.false_eq_true, if_false, if_true]
  rw [hbk]
  simp only [hemp, Bool.not_false]
  exact ⟨_, _, rfl, rfl⟩

end MuleBuild

namespace MuleBuild

/-- C1: in a strip-mode run of `packageProject` in which the descriptor and
config-tree backups were taken (descriptor present, non-empty xml file set,
clean backup location), if any later step fails - the run surfaces an error,
which covers the enforcement abort, a non-zero external build and the
missing-artifact lookup - the cleanup phase still runs before the error is
surfaced: the descriptor holds its pre-run content again, the descriptor
backup file is gone, every config-tree path holds its pre-run content, and
no file remains under the backup directory. -/
theorem C1_strip_fail_restores (o : Oracle) (opts : PkgOptions) (cwd : Path)
    (fs0 : FS) (pc : Chars)
    (hstrip : opts.stripSecure = true)
    (hcb : o.canBuild = true)
    (hcf : o.configOk = true)
    (hpom : lookupFS fs0 (pomPath cwd) = some pc)
    (hxml : getXmlFilesFS fs0 (muleDirPath cwd) ≠ [])
    (hnobk : ∀ p, begins (backupDirPath cwd) p = true → lookupFS fs0 p = none)
    (hfail : ∃ e, (packageProject o opts cwd fs0).1 = Except.error e) :
    lookupFS (packageProject o opts cwd fs0).2.1 (pomPath cwd) = some pc ∧
    lookupFS (packageProject o opts cwd fs0).2.1 (pomBakPath cwd) = none ∧
    (∀ q, begins (muleDirPath cwd) q = true →
      lookupFS (packageProject o opts cwd fs0).2.1 q = lookupFS fs0 q) ∧
    (∀ q, begins (backupDirPath cwd) q = true →
      lookupFS (packageProject o opts cwd fs0).2.1 q = none) := by
  obtain ⟨pn, ver, hP1, hP2⟩ :=
    packageProject_reduce o opts cwd fs0 pc hcb hcf hstrip hpom hxml
  obtain ⟨fs2, hfs2⟩ : ∃ fs2, fs2 =
      copyFilesFS (writeFS (pomBakPath cwd) pc fs0)
        ((getXmlFilesFS fs0 (muleDirPath cwd)).map
          (fun f => (f, backupDirPath cwd ++ relPath (muleDirPath cwd) f))) :=
    ⟨_, rfl⟩
  rw [← hfs2] at hP1 hP2
  have hXmem : ∀ f ∈ getXmlFilesFS fs0 (muleDirPath cwd),
      begins (muleDirPath cwd) f = true ∧ f ≠ muleDirPath cwd ∧
      isXmlPath f = true ∧ lookupFS fs0 f ≠ none := by
    intro f hf
    obtain ⟨_, hk, hbg, hne, hx⟩ := mem_getXmlFilesFS.mp hf
    exact ⟨hbg, hne, hx, lookupFS_ne_none_of_mem_keys hk⟩
  have hpsnd : ∀ p, p ∈ ((getXmlFilesFS fs0 (muleDirPath cwd)).map
        (fun f => (f, backupDirPath cwd ++ relPath (muleDirPath cwd) f))).map
          Prod.snd →
      begins (backupDirPath cwd) p = true := by
    intro p hp
    rw [List.map_map] at hp
    obtain ⟨f, hf, rfl⟩ := List.mem_map.mp hp
    exact begins_append_right _ _
  have hps_snd_eq : ((getXmlFilesFS fs0 (muleDirPath cwd)).map
        (fun f => (f, backupDirPath cwd ++ relPath (muleDirPath cwd) f))).map
          Prod.snd =
      (getXmlFilesFS fs0 (muleDirPath cwd)).map
        (fun f => backupDirPath cwd ++ relPath (muleDirPath cwd) f) := by
    rw [List.map_map]
    rfl
  have hps_nodup : (((getXmlFilesFS fs0 (muleDirPath cwd)).map
      (fun f => (f, backupDirPath cwd ++ relPath (muleDirPath cwd) f))).map
        Prod.snd).Nodup := by
    rw [hps_snd_eq]
    apply List.Nodup.map_on ?_ (getXmlFilesFS_nodup fs0 (muleDirPath cwd))
    intro x hx y hy hxy
    exact relPath_inj (hXmem x hx).1 (hXmem y hy).1 (List.append_cancel_left hxy)
  have hps_src : ∀ pr ∈ (getXmlFilesFS fs0 (muleDirPath cwd)).map
      (fun f => (f, backupDirPath cwd ++ relPath (muleDirPath cwd) f)),
      pr.1 ∉ ((getXmlFilesFS fs0 (muleDirPath cwd)).map
        (fun f => (f, backupDirPath cwd ++ relPath (muleDirPath cwd) f))).map
          Prod.snd := by
    intro pr hpr
    obtain ⟨f, hf, rfl⟩ := List.mem_map.mp hpr
    show f ∉ _
    intro hmem
    have hc := hpsnd f hmem
    rw [begins_backupDir_of_muleDir (hXmem f hf).1] at hc
    exact Bool.noConfusion hc
  have h2out : ∀ q, begins (backupDirPath cwd) q = false → q ≠ pomBakPath cwd →
      lookupFS fs2 q = lookupFS fs0 q := by
    intro q h1 h2
    rw [hfs2,
      lookupFS_copyFiles_out _ _ _
        (fun hm => by rw [hpsnd q hm] at h1; exact Bool.noConfusion h1),
      lookupFS_write_ne _ _ h2]
  obtain ⟨f0, hf0⟩ := List.exists_mem_of_ne_nil _ hxml
  obtain ⟨hf0b, hf0ne, hf0x, hf0s⟩ := hXmem f0 hf0
  obtain ⟨w0, hw0⟩ := Option.ne_none_iff_exists'.mp hf0s
  have hlkf0 : lookupFS fs2 f0 = some w0 := by
    rw [h2out f0 (begins_backupDir_of_muleDir hf0b)
      (ne_of_under_not_under hf0b (begins_muleDir_bak cwd))]
    exact hw0
  have hdir2 : isDirFS fs2 (muleDirPath cwd) = true :=
    isDirFS_of_lookup hlkf0 hf0b hf0ne
  have hX2 : getXmlFilesFS fs2 (muleDirPath cwd) =
      getXmlFilesFS fs0 (muleDirPath cwd) := by
    rw [hfs2, getXmlFilesFS_copy_out _ _ _ ?_,
      getXmlFilesFS_write_out pc (begins_muleDir_bak cwd)]
    intro pr hpr
    obtain ⟨f, hf, rfl⟩ := List.mem_map.mp hpr
    exact begins_muleDir_of_backupDir (begins_append_right _ _)
  have hbfail : ∃ e, (pkgTryBody o opts cwd pn ver fs2).1 = Except.error e := by
    obtain ⟨e, he⟩ := hfail
    rw [hP1] at he
    exact ⟨e, he⟩
  have hout0 := pkgTryBody_fail_out o opts cwd pn ver fs2 hdir2 hbfail
  obtain ⟨s3, hs3⟩ : ∃ s3, s3 = (pkgTryBody o opts cwd pn ver fs2).2.1 := ⟨_, rfl⟩
  rw [← hs3] at hP2 hout0
  have hout : ∀ q, q ∉ getXmlFilesFS fs0 (muleDirPath cwd) → q ≠ pomPath cwd →
      lookupFS s3 q = lookupFS fs2 q := by
    intro q hq hqp
    exact hout0 q (by rw [hX2]; exact hq) hqp
  have hbak_notmem : pomBakPath cwd ∉ getXmlFilesFS fs0 (muleDirPath cwd) := by
    intro hm
    have hc := (hXmem _ hm).1
    rw [begins_muleDir_bak] at hc
    exact Bool.noConfusion hc
  have hbak_nd : pomBakPath cwd ∉ ((getXmlFilesFS fs0 (muleDirPath cwd)).map
      (fun f => (f, backupDirPath cwd ++ relPath (muleDirPath cwd) f))).map
        Prod.snd := by
    intro hm
    have hc := hpsnd _ hm
    rw [begins_backupDir_bak] at hc
    exact Bool.noConfusion hc
  have hs3bak : lookupFS s3 (pomBakPath cwd) = some pc := by
    rw [hout _ hbak_notmem (path_single_ne (by decide)), hfs2,
      lookupFS_copyFiles_out _ _ _ hbak_nd, lookupFS_write_self]
  have hs3bk : ∀ f ∈ getXmlFilesFS fs0 (muleDirPath cwd),
      lookupFS s3 (backupDirPath cwd ++ relPath (muleDirPath cwd) f) =
        some ((lookupFS fs0 f).getD []) := by
    intro f hf
    have hbkb : begins (backupDirPath cwd)
        (backupDirPath cwd ++ relPath (muleDirPath cwd) f) = true :=
      begins_append_right _ _
    have hnX : backupDirPath cwd ++ relPath (muleDirPath cwd) f ∉
        getXmlFilesFS fs0 (muleDirPath cwd) := by
      intro hm
      have hc := (hXmem _ hm).1
      rw [begins_muleDir_of_backupDir hbkb] at hc
      exact Bool.noConfusion hc
    rw [hout _ hnX (ne_of_under_not_under hbkb (begins_backupDir_pom cwd)), hfs2]
    have hdst := lookupFS_copyFiles_dest _ (writeFS (pomBakPath cwd) pc fs0)
      hps_nodup hps_src _ (List.mem_map_of_mem _ hf)
    simp only at hdst
    rw [hdst, lookupFS_write_ne _ _
      (ne_of_under_not_under (hXmem f hf).1 (begins_muleDir_bak cwd))]
  have hs3bd : ∀ q, begins (backupDirPath cwd) q = true →
      q ∉ (getXmlFilesFS fs0 (muleDirPath cwd)).map
        (fun f => backupDirPath cwd ++ relPath (muleDirPath cwd) f) →
      lookupFS s3 q = none := by
    intro q hq hni
    have hqnX : q ∉ getXmlFilesFS fs0 (muleDirPath cwd) := by
      intro hm
      have hc := (hXmem _ hm).1
      rw [begins_muleDir_of_backupDir hq] at hc
      exact Bool.noConfusion hc
    rw [hout _ hqnX (ne_of_under_not_under hq (begins_backupDir_pom cwd)), hfs2,
      lookupFS_copyFiles_out _ _ _ (by rw [hps_snd_eq]; exact hni),
      lookupFS_write_ne _ _ (ne_of_under_not_under hq (begins_backupDir_bak cwd))]
    exact hnobk q hq
  have hs3md : ∀ q, begins (muleDirPath cwd) q = true →
      q ∉ getXmlFilesFS fs0 (muleDirPath cwd) →
      lookupFS s3 q = lookupFS fs0 q := by
    intro q hq hni
    rw [hout _ hni (ne_of_under_not_under hq (begins_muleDir_pom cwd))]
    exact h2out q (begins_backupDir_of_muleDir hq)
      (ne_of_under_not_under hq (begins_muleDir_bak cwd))
  obtain ⟨hc1, hc2, hc3, hc4⟩ := cleanup_restores cwd s3 fs0 pc
    (getXmlFilesFS fs0 (muleDirPath cwd))
    (fun f hf => (hXmem f hf).1) (fun f hf => (hXmem f hf).2.1)
    (fun f hf => (hXmem f hf).2.2.1) (fun f hf => (hXmem f hf).2.2.2)
    hxml hs3bak hs3bk hs3bd hs3md
  rw [hP2]
  exact ⟨hc1, hc2, hc3, hc4⟩

end MuleBuild

namespace MuleBuild

/-- Witness oracle: all collaborators fine except the maven build. -/
def c1o : Oracle := ⟨true, true, true, false, none, "ts", "op", "host"⟩

/-- Witness options: strip mode, no environment, no version override. -/
def c1opts : PkgOptions := ⟨none, true, none⟩

/-- Witness project: a descriptor and one secure-marked config file. -/
def c1fs : FS :=
  [(pomPath [], "<name>app</name>".toList),
   (muleDirPath [] ++ ["flow.xml"], "$\x7bsecure::db.password\x7d".toList)]

theorem C1_strip_fail_restores_witness :
    (packageProject c1o c1opts [] c1fs).1 = Except.error "Maven build failed" ∧
    lookupFS (packageProject c1o c1opts [] c1fs).2.1 (pomPath []) =
      some "<name>app</name>".toList ∧
    lookupFS (packageProject c1o c1opts [] c1fs).2.1 (pomBakPath []) = none ∧
    lookupFS (packageProject c1o c1opts [] c1fs).2.1 (muleDirPath [] ++ ["flow.xml"]) =
      lookupFS c1fs (muleDirPath [] ++ ["flow.xml"]) ∧
    lookupFS (packageProject c1o c1opts [] c1fs).2.1
      (backupDirPath [] ++ ["flow.xml"]) = none := by
  have hnobk : ∀ p, begins (backupDirPath []) p = true → lookupFS c1fs p = none := by
    intro p hp
    have h1 : pomPath [] ≠ p := by
      intro he
      rw [← he] at hp
      exact absurd hp (by decide)
    have h2 : muleDirPath [] ++ ["flow.xml"] ≠ p := by
      intro he
      rw [← he] at hp
      exact absurd hp (by decide)
    show lookupFS c1fs p = none
    simp only [c1fs, lookupFS]
    rw [if_neg h1, if_neg h2]
  have herr : (packageProject c1o c1opts [] c1fs).1 =
      Except.error "Maven build failed" := by decide
  obtain ⟨h2, h3, h4, h5⟩ := C1_strip_fail_restores c1o c1opts [] c1fs
    ("<name>app</name>".toList) rfl rfl rfl (by decide) (by decide) hnobk
    ⟨"Maven build failed", herr⟩
  exact ⟨herr, h2, h3, h4 _ (by decide), h5 _ (by decide)⟩

end MuleBuild

namespace MuleBuild

/-- Witness oracle for the enforce gate: every collaborator succeeds. -/
def c2o : Oracle := ⟨true, true, true, true, none, "ts", "op", "host"⟩

/-- Witness options: production environment, no stripping. -/
def c2opts : PkgOptions := ⟨some "production", false, none⟩

/-- Witness project: a descriptor and one unsecured sensitive reference. -/
def c2fs : FS :=
  [(pomPath [], "<name>app</name>".toList),
   (muleDirPath [] ++ ["flow.xml"], "$\x7bdb.password\x7d".toList)]

theorem C2_enforce_gate_aborts_witness :
    (∃ e, (packageProject c2o c2opts [] c2fs).1 = Except.error e) ∧
    Ev.build ∉ (packageProject c2o c2opts [] c2fs).2.2 ∧
    begins (muleDirPath []) (pomBakPath []) = false := by
  have hv : ∃ vs, enforceSecureFS c2fs (muleDirPath []) []
      DEFAULT_SENSITIVE_PATTERNS = .ok vs ∧ vs ≠ [] := by
    refine ⟨match enforceSecureFS c2fs (muleDirPath []) []
        DEFAULT_SENSITIVE_PATTERNS with
      | .ok vs => vs
      | .error _ => [], ?_, ?_⟩
    · decide
    · decide
  obtain ⟨h1, h2, h3⟩ := C2_enforce_gate_aborts c2o c2opts [] c2fs rfl rfl hv
  exact ⟨h1, h2, h3 (pomBakPath []) (by decide)⟩

end MuleBuild
